import Mathlib

/-!
# TinyRaytracer: the integrator `ray_color` and the sampling loop of `main`

The development embeds `src/main.cpp`.  The C++ `double` is modelled by an
arbitrary linearly ordered field `K` with a floor function (`ℚ` for
evaluation, `ℝ` where an exact square root is wanted).  The integrator is
modelled in exact arithmetic; the quantisation of a channel (lines 165-173)
rounds after every operation, by a rounding function `rnd` whose instance
`round_double` is the rounding to the nearest double with an unbounded
exponent.  NaN, infinities and subnormal numbers are outside the model.  The
global random
generator behind `random_double` is modelled by an explicit state `σ` that is
threaded through every call that may draw from it.  The headers `vec3.h`,
`ray.h`, `hittable.h`, `material.h`, `camera.h` and `rtweekend.h` are not part
of the sources at hand: what `main.cpp` needs of them is either a parameter
(`hit`, `scatter`, `get_ray`, `random_double`, `sqrt`, `rnd`) or a small
definition modelled from the specification.
-/

namespace TinyRaytracer

/-! ## Vectors, rays, hit records -/

/-- Modelled from the spec: the type `vec3` of `vec3.h` (absent), three real
components used as a point, a direction or a colour. -/
structure vec3 (K : Type) where
  x : K
  y : K
  z : K
deriving DecidableEq

/-- Modelled from the spec: `color` of `vec3.h` (absent) is an alias of `vec3`. -/
abbrev color (K : Type) := vec3 K

/-- Modelled from the spec: `point3` of `vec3.h` (absent) is an alias of `vec3`. -/
abbrev point3 (K : Type) := vec3 K

/-- Modelled from the spec: `vec3 + vec3` of `vec3.h` (absent), component by
component. -/
def vec3.add {K : Type} [Add K] (u v : vec3 K) : vec3 K :=
  ⟨u.x + v.x, u.y + v.y, u.z + v.z⟩

/-- Modelled from the spec: `vec3 * vec3` of `vec3.h` (absent), the
element-wise product used for attenuation. -/
def vec3.mul {K : Type} [Mul K] (u v : vec3 K) : vec3 K :=
  ⟨u.x * v.x, u.y * v.y, u.z * v.z⟩

/-- Modelled from the spec: `double * vec3` of `vec3.h` (absent). -/
def vec3.smul {K : Type} [Mul K] (t : K) (v : vec3 K) : vec3 K :=
  ⟨t * v.x, t * v.y, t * v.z⟩

/-- Modelled from the spec: `vec3 / double` of `vec3.h` (absent). -/
def vec3.sdiv {K : Type} [Div K] (v : vec3 K) (t : K) : vec3 K :=
  ⟨v.x / t, v.y / t, v.z / t⟩

/-- Modelled from the spec: `vec3::length_squared` of `vec3.h` (absent). -/
def vec3.length_squared {K : Type} [Add K] [Mul K] (v : vec3 K) : K :=
  v.x * v.x + v.y * v.y + v.z * v.z

/-- Modelled from the spec: `vec3::length` of `vec3.h` (absent); the square
root of the C++ library is the parameter `sqrt`. -/
def vec3.length {K : Type} [Add K] [Mul K] (sqrt : K → K) (v : vec3 K) : K :=
  sqrt v.length_squared

/-- Modelled from the spec: `unit_vector` of `vec3.h` (absent), the vector
divided by its length. -/
def unit_vector {K : Type} [Add K] [Mul K] [Div K] (sqrt : K → K) (v : vec3 K) : vec3 K :=
  v.sdiv (v.length sqrt)

/-- Modelled from the spec: the class `ray` of `ray.h` (absent): an origin and
a direction that need not be of unit length. -/
structure ray (K : Type) where
  origin : point3 K
  direction : vec3 K
deriving DecidableEq

/-- Modelled from the spec: `hit_record` of `hittable.h` (absent).  `mat_ptr`
is a handle of type `M` on the material of the object that was hit. -/
structure hit_record (K M : Type) where
  p : point3 K
  normal : vec3 K
  mat_ptr : M
  t : K
  front_face : Bool

/-- The colour `color(0,0,0)`. -/
def black {K : Type} [Zero K] : color K := ⟨0, 0, 0⟩

/-- The colour `color(1.0, 1.0, 1.0)` of the background blend. -/
def white {K : Type} [One K] : color K := ⟨1, 1, 1⟩

/-- The colour `color(0.5, 0.7, 1.0)` of the background blend. -/
def sky_blue {K : Type} [DivisionRing K] : color K := ⟨1 / 2, 7 / 10, 1⟩

/-- The last statement of `ray_color`:
`(1.0-t)*color(1.0, 1.0, 1.0) + t*color(0.5, 0.7, 1.0)`. -/
def blend {K : Type} [DivisionRing K] (t : K) : color K :=
  (vec3.smul (1 - t) white).add (vec3.smul t sky_blue)

/-- Lines 38-40 of `main.cpp`: the colour of a ray that hits nothing. -/
def background {K : Type} [DivisionRing K] (sqrt : K → K) (r : ray K) : color K :=
  let unit_direction := unit_vector sqrt r.direction
  let t := (1 / 2) * (unit_direction.y + 1)
  blend t

/-! ## The integrator -/

/-- The function `ray_color` of `main.cpp`.  `hit r t_min t_max` is
`world.hit(r, t_min, t_max, rec)` (`none` for `false`, `some rec` for `true`,
`⊤` for `infinity`); `scatter m r rec s` is `m->scatter(r, rec, attenuation,
scattered)` run in generator state `s` (`none` for `false`), together with the
generator state it leaves. -/
def ray_color {K M σ : Type} [LinearOrderedField K]
    (hit : ray K → K → WithTop K → Option (hit_record K M))
    (scatter : M → ray K → hit_record K M → σ → Option (color K × ray K) × σ)
    (sqrt : K → K) (r : ray K) (depth : ℤ) (s : σ) : color K × σ :=
  if _hd : depth ≤ 0 then
    (black, s)
  else
    match hit r (1 / 1000) ⊤ with
    | some rec =>
      match scatter rec.mat_ptr r rec s with
      | (some (attenuation, scattered), s1) =>
        let res := ray_color hit scatter sqrt scattered (depth - 1) s1
        (attenuation.mul res.1, res.2)
      | (none, s1) => (black, s1)
    | none => (background sqrt r, s)
termination_by depth.toNat
decreasing_by omega

/-- The function `ray_color` once more, returning besides its result the number
of invocations of `ray_color` the call caused (itself included) and the number
of intersection queries `world.hit` they made. -/
def ray_color_traced {K M σ : Type} [LinearOrderedField K]
    (hit : ray K → K → WithTop K → Option (hit_record K M))
    (scatter : M → ray K → hit_record K M → σ → Option (color K × ray K) × σ)
    (sqrt : K → K) (r : ray K) (depth : ℤ) (s : σ) : (color K × σ) × ℕ × ℕ :=
  if _hd : depth ≤ 0 then
    ((black, s), 1, 0)
  else
    match hit r (1 / 1000) ⊤ with
    | some rec =>
      match scatter rec.mat_ptr r rec s with
      | (some (attenuation, scattered), s1) =>
        let res := ray_color_traced hit scatter sqrt scattered (depth - 1) s1
        ((attenuation.mul res.1.1, res.1.2), res.2.1 + 1, res.2.2 + 1)
      | (none, s1) => ((black, s1), 1, 1)
    | none => ((background sqrt r, s), 1, 1)
termination_by depth.toNat
decreasing_by omega

/-- Modelled from the spec: `hittable_list::hit` of `hittable_list.h` (absent):
every member is tested, the closest hit so far is kept and `t_max` is narrowed
to its `t`.  A member is given by its own `hit` function. -/
def hittable_list_hit {K M : Type}
    (objects : List (ray K → K → WithTop K → Option (hit_record K M)))
    (r : ray K) (t_min : K) (t_max : WithTop K) : Option (hit_record K M) :=
  (objects.foldl
    (fun (st : Option (hit_record K M) × WithTop K) object =>
      match object r t_min st.2 with
      | some rec => (some rec, (rec.t : WithTop K))
      | none => st)
    (none, t_max)).1

/-! ## Double arithmetic -/

/-- The two properties of rounding to the nearest double that the quantisation
relies on: rounding is monotone, and its relative error is at most `2^-53`. -/
def IsRounding {K : Type} [LinearOrderedField K] (rnd : K → K) : Prop :=
  Monotone rnd ∧ ∀ x : K, |rnd x - x| ≤ |x| / 2 ^ 53

/-- The nearest integer, a tie going to the even one. -/
def round_even {K : Type} [LinearOrderedField K] [FloorRing K] (x : K) : ℤ :=
  if x - (⌊x⌋ : K) < 1 / 2 then ⌊x⌋
  else if 1 / 2 < x - (⌊x⌋ : K) then ⌊x⌋ + 1
  else if ⌊x⌋ % 2 = 0 then ⌊x⌋ else ⌊x⌋ + 1

/-- The nearest number with a significand of 53 bits to a positive `x`, a tie
going to the even significand; zero for the other `x`. -/
def round_pos {K : Type} [LinearOrderedField K] [FloorRing K] (x : K) : K :=
  if x ≤ 0 then 0
  else (round_even (x / (2 : K) ^ (Int.log 2 x - 52)) : K) * (2 : K) ^ (Int.log 2 x - 52)

/-- The rounding of a real number to the nearest `double` (round to nearest,
ties to even), the exponent range taken as unbounded. -/
def round_double {K : Type} [LinearOrderedField K] [FloorRing K] (x : K) : K :=
  if 0 ≤ x then round_pos x else -round_pos (-x)

/-- The function `sqrt` of the C library on a non-negative `double`: the
correctly rounded square root.  With `4^(e+52) <= x < 4^(e+53)` the root of
`m = x / 4^e` lies in `[2^52, 2^53)`; `n` is its integer part, and the root is
rounded up when it exceeds `n + 1/2`, that is when `m > n*n + n + 1/4`. -/
def sqrt_double {K : Type} [LinearOrderedField K] [FloorRing K] (x : K) : K :=
  if x ≤ 0 then 0
  else
    let e := Int.log 4 x - 52
    let m := x / (4 : K) ^ e
    let n := Nat.sqrt ⌊m⌋₊
    let w : ℕ :=
      if m < (n : K) * n + n + 1 / 4 then n
      else if (n : K) * n + n + 1 / 4 < m then n + 1
      else if n % 2 = 0 then n else n + 1
    (w : K) * (2 : K) ^ e

/-! ## The sampling loop of `main` -/

/-- Modelled from the spec: `clamp` of `rtweekend.h` (absent). -/
def clamp {K : Type} [LinearOrder K] (x min max : K) : K :=
  if x < min then min else if x > max then max else x

/-- The conversion `static_cast<int>` of a `double`: truncation toward zero. -/
def static_cast_int {K : Type} [LinearOrderedField K] [FloorRing K] (x : K) : ℤ :=
  if 0 ≤ x then ⌊x⌋ else ⌈x⌉

/-- Lines 165-173 of `main.cpp` for one channel: the value written for the
accumulated channel sum `c`.  Every operation on doubles is followed by the
rounding `rnd`: the conversion of `samples_per_pixel`, the division
`1.0 / samples_per_pixel`, the product `scale * r`, the literal `0.999` and the
product by `256`; `sqrt` is the square root of the C library on doubles. -/
def write_channel {K : Type} [LinearOrderedField K] [FloorRing K]
    (rnd sqrt : K → K) (samples_per_pixel : ℤ) (c : K) : ℤ :=
  let scale := rnd (1 / rnd (samples_per_pixel : K))
  let r := sqrt (rnd (scale * c))
  static_cast_int (rnd (256 * clamp r 0 (rnd (999 / 1000))))

/-- Line 153 of `main.cpp`: `(i + random_double()) / (image_width - 1)`, for the
drawn number `d`. -/
def sample_u {K : Type} [LinearOrderedField K] (image_width i : ℤ) (d : K) : K :=
  ((i : K) + d) / (((image_width - 1 : ℤ)) : K)

/-- Line 154 of `main.cpp`: `(j + random_double()) / (image_height - 1)`, for the
drawn number `d`. -/
def sample_v {K : Type} [LinearOrderedField K] (image_height j : ℤ) (d : K) : K :=
  ((j : K) + d) / (((image_height - 1 : ℤ)) : K)

/-- The locals of `main` the render loop reads: the image parameters, the world
(`hit`, `scatter`), the camera (`get_ray`, which may draw random numbers for
the lens), the library functions `random_double` and `sqrt`, and the rounding
`rnd` of the double operations of the quantisation. -/
structure render_setup (K M σ : Type) where
  image_width : ℤ
  image_height : ℤ
  samples_per_pixel : ℤ
  max_depth : ℤ
  hit : ray K → K → WithTop K → Option (hit_record K M)
  scatter : M → ray K → hit_record K M → σ → Option (color K × ray K) × σ
  get_ray : K → K → σ → ray K × σ
  random_double : σ → K × σ
  sqrt : K → K
  rnd : K → K

/-- One iteration of the loop over `s` (lines 153-156): two draws, the camera
ray, the integrator, and the accumulation into `pixel_color`. -/
def sample_step {K M σ : Type} [LinearOrderedField K] (E : render_setup K M σ)
    (i j : ℤ) (acc : color K × σ) : color K × σ :=
  let d1 := E.random_double acc.2
  let u := sample_u E.image_width i d1.1
  let d2 := E.random_double d1.2
  let v := sample_v E.image_height j d2.1
  let r := E.get_ray u v d2.2
  let c := ray_color E.hit E.scatter E.sqrt r.1 E.max_depth r.2
  (acc.1.add c.1, c.2)

/-- Lines 151-157: `pixel_color` after the loop over the samples, started in
generator state `s`. -/
def pixel_color {K M σ : Type} [LinearOrderedField K] (E : render_setup K M σ)
    (i j : ℤ) (s : σ) : color K × σ :=
  (sample_step E i j)^[E.samples_per_pixel.toNat] (black, s)

/-- A call `image.setPixel(i, j, sf::Color(r, g, b))`. -/
structure pixel_write where
  i : ℤ
  j : ℤ
  r : ℤ
  g : ℤ
  b : ℤ
deriving DecidableEq

/-- The location a write goes to. -/
def pixel_write.loc (w : pixel_write) : ℤ × ℤ := (w.i, w.j)

/-- The body of the loop over `i` (lines 151-176): the write of pixel `(i, j)`
and the generator state after it. -/
def render_pixel {K M σ : Type} [LinearOrderedField K] [FloorRing K]
    (E : render_setup K M σ) (i j : ℤ) (s : σ) : pixel_write × σ :=
  let p := pixel_color E i j s
  (⟨i, j, write_channel E.rnd E.sqrt E.samples_per_pixel p.1.x,
      write_channel E.rnd E.sqrt E.samples_per_pixel p.1.y,
      write_channel E.rnd E.sqrt E.samples_per_pixel p.1.z⟩, p.2)

/-- The first `n` iterations of the loop over `i` in row `j`, appended to the
writes made so far. -/
def render_row_upto {K M σ : Type} [LinearOrderedField K] [FloorRing K]
    (E : render_setup K M σ) (j : ℤ) (n : ℕ) (st : List pixel_write × σ) :
    List pixel_write × σ :=
  (List.range n).foldl
    (fun (st : List pixel_write × σ) (i : ℕ) =>
      let w := render_pixel E (i : ℤ) j st.2
      (st.1 ++ [w.1], w.2)) st

/-- The loop `for (int i = 0; i < image_width; ++i)` of row `j`. -/
def render_row {K M σ : Type} [LinearOrderedField K] [FloorRing K]
    (E : render_setup K M σ) (j : ℤ) (st : List pixel_write × σ) :
    List pixel_write × σ :=
  render_row_upto E j E.image_width.toNat st

/-- The first `n` iterations of the loop over `j`. -/
def render_upto {K M σ : Type} [LinearOrderedField K] [FloorRing K]
    (E : render_setup K M σ) (n : ℕ) (st : List pixel_write × σ) :
    List pixel_write × σ :=
  (List.range n).foldl (fun (st : List pixel_write × σ) (j : ℕ) => render_row E (j : ℤ) st) st

/-- The render loop of `main` (lines 147-178), run in row order from generator
state `s`: the calls of `setPixel` in the order they are made, and the final
generator state. -/
def render {K M σ : Type} [LinearOrderedField K] [FloorRing K]
    (E : render_setup K M σ) (s : σ) : List pixel_write × σ :=
  render_upto E E.image_height.toNat ([], s)

/-- The render loop with its rows run in the order `order`: under
`#pragma omp parallel for ... schedule(dynamic)` the rows are handed to the
threads as they become free, and all threads draw from the one generator; the
model runs one row at a time, in the order the rows are taken. -/
def render_rows {K M σ : Type} [LinearOrderedField K] [FloorRing K]
    (E : render_setup K M σ) (order : List ℕ) (st : List pixel_write × σ) :
    List pixel_write × σ :=
  order.foldl (fun (st : List pixel_write × σ) (j : ℕ) => render_row E (j : ℤ) st) st

/-- The locations of the render loop's iterations, in the order of the loops. -/
def iteration_locs (image_width image_height : ℤ) : List (ℤ × ℤ) :=
  (List.range image_height.toNat).flatMap
    (fun (j : ℕ) => (List.range image_width.toNat).map (fun (i : ℕ) => ((i : ℤ), (j : ℤ))))

/-- The specification of an exact square root on the non-negative numbers. -/
def IsSqrt {K : Type} [LinearOrderedField K] (sqrt : K → K) : Prop :=
  ∀ x : K, 0 ≤ x → 0 ≤ sqrt x ∧ sqrt x * sqrt x = x

/-- Every channel of the colour lies in `[0, b]`. -/
def vec3.within {K : Type} [LinearOrderedField K] (c : color K) (b : K) : Prop :=
  (0 ≤ c.x ∧ c.x ≤ b) ∧ (0 ≤ c.y ∧ c.y ≤ b) ∧ (0 ≤ c.z ∧ c.z ≤ b)

/-- Every channel of the colour lies in `[0,1]`. -/
def vec3.unit_range {K : Type} [LinearOrderedField K] (c : color K) : Prop :=
  c.within 1

/-! ## A small scene, used to evaluate the definitions -/

/-- A world that is a horizontal floor at height zero: rays that go down hit
it.  The material handle is `true` (a mirror) where `x` is not negative and
`false` (an absorber) elsewhere. -/
def floor_hit {K : Type} [LinearOrderedField K] :
    ray K → K → WithTop K → Option (hit_record K Bool) :=
  fun r _ _ =>
    if r.direction.y < 0 then
      some ⟨⟨r.origin.x, 0, r.origin.z⟩, ⟨0, 1, 0⟩, decide (0 ≤ r.origin.x), 1, true⟩
    else none

/-- The materials of the floor: the mirror halves the light and reflects the
ray about the normal, the absorber scatters nothing.  Either takes one draw of
the generator, whose state is a counter. -/
def floor_scatter {K : Type} [LinearOrderedField K] :
    Bool → ray K → hit_record K Bool → ℕ → Option (color K × ray K) × ℕ :=
  fun m r rec s =>
    if m then
      (some (⟨1 / 2, 1 / 2, 1 / 2⟩,
        ⟨rec.p, ⟨r.direction.x, -r.direction.y, r.direction.z⟩⟩), s + 1)
    else (none, s + 1)

/-- A pinhole camera at height one that draws nothing from the generator. -/
def pinhole_get_ray {K : Type} [LinearOrderedField K] : K → K → ℕ → ray K × ℕ :=
  fun u v s => (⟨⟨0, 1, 0⟩, ⟨u - 1 / 2, v - 1 / 2, -1⟩⟩, s)

/-- A generator whose state is a counter and whose draws cycle through
`0, 1/4, 1/2, 3/4`. -/
def cycle_random_double {K : Type} [LinearOrderedField K] : ℕ → K × ℕ :=
  fun s => (((s % 4 : ℕ) : K) / 4, s + 1)

/-- The floor scene seen through the pinhole camera, quantised in double
arithmetic. -/
def floor_setup {K : Type} [LinearOrderedField K] [FloorRing K] (sqrt : K → K)
    (image_width image_height samples_per_pixel max_depth : ℤ) : render_setup K Bool ℕ :=
  { image_width := image_width
    image_height := image_height
    samples_per_pixel := samples_per_pixel
    max_depth := max_depth
    hit := floor_hit
    scatter := floor_scatter
    get_ray := pinhole_get_ray
    random_double := cycle_random_double
    sqrt := sqrt
    rnd := round_double }

theorem ray_color_nonpos {K M σ : Type} [LinearOrderedField K]
    (hit : ray K → K → WithTop K → Option (hit_record K M))
    (scatter : M → ray K → hit_record K M → σ → Option (color K × ray K) × σ)
    (sqrt : K → K) (r : ray K) (depth : ℤ) (s : σ) (hd : depth ≤ 0) :
    ray_color hit scatter sqrt r depth s = (black, s) := by
  rw [ray_color]; simp [hd]

theorem ray_color_miss {K M σ : Type} [LinearOrderedField K]
    (hit : ray K → K → WithTop K → Option (hit_record K M))
    (scatter : M → ray K → hit_record K M → σ → Option (color K × ray K) × σ)
    (sqrt : K → K) (r : ray K) (depth : ℤ) (s : σ) (hd : 0 < depth)
    (hm : hit r (1 / 1000) ⊤ = none) :
    ray_color hit scatter sqrt r depth s = (background sqrt r, s) := by
  rw [ray_color, dif_neg (not_le.mpr hd), hm]

theorem ray_color_scattered {K M σ : Type} [LinearOrderedField K]
    (hit : ray K → K → WithTop K → Option (hit_record K M))
    (scatter : M → ray K → hit_record K M → σ → Option (color K × ray K) × σ)
    (sqrt : K → K) (r : ray K) (depth : ℤ) (s : σ) (hd : 0 < depth)
    (rec : hit_record K M) (hh : hit r (1 / 1000) ⊤ = some rec)
    (attenuation : color K) (scattered : ray K) (s1 : σ)
    (hs : scatter rec.mat_ptr r rec s = (some (attenuation, scattered), s1)) :
    ray_color hit scatter sqrt r depth s =
      (attenuation.mul (ray_color hit scatter sqrt scattered (depth - 1) s1).1,
        (ray_color hit scatter sqrt scattered (depth - 1) s1).2) := by
  rw [ray_color, dif_neg (not_le.mpr hd), hh]
  simp only [hs]

theorem ray_color_absorbed {K M σ : Type} [LinearOrderedField K]
    (hit : ray K → K → WithTop K → Option (hit_record K M))
    (scatter : M → ray K → hit_record K M → σ → Option (color K × ray K) × σ)
    (sqrt : K → K) (r : ray K) (depth : ℤ) (s : σ) (hd : 0 < depth)
    (rec : hit_record K M) (hh : hit r (1 / 1000) ⊤ = some rec) (s1 : σ)
    (hs : scatter rec.mat_ptr r rec s = (none, s1)) :
    ray_color hit scatter sqrt r depth s = (black, s1) := by
  rw [ray_color, dif_neg (not_le.mpr hd), hh]
  simp only [hs]


/-! ### Normalisation with an exact square root -/

theorem length_squared_pos {K : Type} [LinearOrderedField K] (v : vec3 K)
    (hv : v ≠ ⟨0, 0, 0⟩) : 0 < v.length_squared := by
  rcases v with ⟨x, y, z⟩
  have hx := mul_self_nonneg x
  have hy := mul_self_nonneg y
  have hz := mul_self_nonneg z
  have h0 : 0 ≤ x * x + y * y + z * z := by linarith
  rcases h0.lt_or_eq with h | h
  · exact h
  · exfalso
    apply hv
    have ex : x * x = 0 := by linarith
    have ey : y * y = 0 := by linarith
    have ez : z * z = 0 := by linarith
    rw [mul_self_eq_zero.mp ex, mul_self_eq_zero.mp ey, mul_self_eq_zero.mp ez]

theorem length_pos {K : Type} [LinearOrderedField K] (sqrt : K → K) (hsqrt : IsSqrt sqrt)
    (v : vec3 K) (hv : v ≠ ⟨0, 0, 0⟩) : 0 < v.length sqrt := by
  have hq := length_squared_pos v hv
  obtain ⟨h0, h1⟩ := hsqrt v.length_squared hq.le
  rcases h0.lt_or_eq with h | h
  · exact h
  · exfalso
    have h2 : sqrt v.length_squared = 0 := h.symm
    rw [h2] at h1
    simp at h1
    exact absurd h1 hq.ne

theorem unit_vector_y_bounds {K : Type} [LinearOrderedField K] (sqrt : K → K)
    (hsqrt : IsSqrt sqrt) (v : vec3 K) (hv : v ≠ ⟨0, 0, 0⟩) :
    -1 ≤ (unit_vector sqrt v).y ∧ (unit_vector sqrt v).y ≤ 1 := by
  have hl := length_pos sqrt hsqrt v hv
  have hq := length_squared_pos v hv
  obtain ⟨_, h1⟩ := hsqrt v.length_squared hq.le
  have hsq : v.y * v.y ≤ v.length sqrt * v.length sqrt := by
    unfold vec3.length
    rw [h1]
    unfold vec3.length_squared
    nlinarith [mul_self_nonneg v.x, mul_self_nonneg v.z]
  have habs : |v.y| ≤ v.length sqrt := by
    have := abs_le_iff_mul_self_le.mpr hsq
    rwa [abs_of_pos hl] at this
  have hb := abs_le.mp habs
  show -1 ≤ v.y / v.length sqrt ∧ v.y / v.length sqrt ≤ 1
  constructor
  · rw [le_div_iff₀ hl]; linarith [hb.1]
  · rw [div_le_one hl]; exact hb.2

theorem unit_vector_up {K : Type} [LinearOrderedField K] (sqrt : K → K)
    (hsqrt : IsSqrt sqrt) (k : K) (hk : 0 < k) :
    unit_vector sqrt ⟨0, k, 0⟩ = ⟨0, 1, 0⟩ ∧ unit_vector sqrt ⟨0, -k, 0⟩ = ⟨0, -1, 0⟩ := by
  have hkk : 0 ≤ k * k := mul_self_nonneg k
  obtain ⟨h0, h1⟩ := hsqrt (k * k) hkk
  have hs : sqrt (k * k) = k := by
    have := (mul_self_eq_mul_self_iff.mp h1)
    rcases this with h | h
    · exact h
    · exfalso; linarith
  have hne : k ≠ 0 := hk.ne'
  constructor
  · simp [unit_vector, vec3.sdiv, vec3.length, vec3.length_squared, hs, hne]
  · simp [unit_vector, vec3.sdiv, vec3.length, vec3.length_squared, hs, hne, neg_div]

theorem isSqrt_real : IsSqrt Real.sqrt := fun x hx =>
  ⟨Real.sqrt_nonneg x, Real.mul_self_sqrt hx⟩

theorem blend_unit_range {K : Type} [LinearOrderedField K] (t : K) (h0 : 0 ≤ t)
    (h1 : t ≤ 1) : (blend t).unit_range := by
  simp only [blend, vec3.unit_range, vec3.within, vec3.add, vec3.smul, white, sky_blue]
  refine ⟨⟨?_, ?_⟩, ⟨?_, ?_⟩, ⟨?_, ?_⟩⟩ <;> linarith

theorem blend_ne_black {K : Type} [LinearOrderedField K] (t : K) : blend t ≠ black := by
  intro h
  have hz := congrArg vec3.z h
  simp [blend, vec3.add, vec3.smul, white, sky_blue, black] at hz

/-- C1: at depth zero `ray_color` returns black, whatever the ray, the world,
the materials and the generator state are. -/
theorem ray_color_depth_zero {K M σ : Type} [LinearOrderedField K]
    (hit : ray K → K → WithTop K → Option (hit_record K M))
    (scatter : M → ray K → hit_record K M → σ → Option (color K × ray K) × σ)
    (sqrt : K → K) (r : ray K) (s : σ) :
    ray_color hit scatter sqrt r 0 s = (black, s) ∧
      (ray_color hit scatter sqrt r 0 s).1 = (⟨0, 0, 0⟩ : color K) := by
  have h : ray_color hit scatter sqrt r 0 s = (black, s) := by
    rw [ray_color]; simp
  exact ⟨h, by rw [h]; rfl⟩

/-! ### The instrumented integrator -/

theorem ray_color_traced_aux {K M σ : Type} [LinearOrderedField K]
    (hit : ray K → K → WithTop K → Option (hit_record K M))
    (scatter : M → ray K → hit_record K M → σ → Option (color K × ray K) × σ)
    (sqrt : K → K) (n : ℕ) :
    ∀ (r : ray K) (depth : ℤ) (s : σ), depth.toNat = n →
      (ray_color_traced hit scatter sqrt r depth s).1 = ray_color hit scatter sqrt r depth s ∧
      1 ≤ (ray_color_traced hit scatter sqrt r depth s).2.1 ∧
      (ray_color_traced hit scatter sqrt r depth s).2.1 ≤ n + 1 ∧
      (ray_color_traced hit scatter sqrt r depth s).2.2 ≤ n := by
  induction n with
  | zero =>
    intro r depth s hn
    have hd : depth ≤ 0 := by omega
    rw [ray_color_traced, ray_color, dif_pos hd, dif_pos hd]
    simp
  | succ n ih =>
    intro r depth s hn
    have hd : ¬ depth ≤ 0 := by omega
    rw [ray_color_traced, ray_color, dif_neg hd, dif_neg hd]
    cases hh : hit r (1 / 1000) ⊤ with
    | none => simp
    | some rec =>
      simp only []
      rcases hs : scatter rec.mat_ptr r rec s with ⟨_ | ⟨attenuation, scattered⟩, s1⟩
      · simp
      · obtain ⟨e, c1, c2, c3⟩ := ih scattered (depth - 1) s1 (by omega)
        simp only []
        refine ⟨?_, ?_, ?_, ?_⟩
        · rw [← e]
        · omega
        · omega
        · omega

/-- C3: `ray_color` is a total function of the world, the ray, the depth (of
either sign) and the generator state.  Every invocation either returns without
recursing (depth exhausted, miss, absorption) or makes one recursive call at
`depth - 1`; counted by the instrumented copy, which computes the same result,
a call at depth `d` causes at least one and at most `max d 0 + 1` invocations
and at most `max d 0` intersection queries. -/
theorem ray_color_terminates_bounded {K M σ : Type} [LinearOrderedField K]
    (hit : ray K → K → WithTop K → Option (hit_record K M))
    (scatter : M → ray K → hit_record K M → σ → Option (color K × ray K) × σ)
    (sqrt : K → K) (r : ray K) (depth : ℤ) (s : σ) :
    (ray_color_traced hit scatter sqrt r depth s).1 = ray_color hit scatter sqrt r depth s ∧
    1 ≤ (ray_color_traced hit scatter sqrt r depth s).2.1 ∧
    ((ray_color_traced hit scatter sqrt r depth s).2.1 : ℤ) ≤ max depth 0 + 1 ∧
    ((ray_color_traced hit scatter sqrt r depth s).2.2 : ℤ) ≤ max depth 0 ∧
    ((depth ≤ 0 ∧ ray_color_traced hit scatter sqrt r depth s = ((black, s), 1, 0)) ∨
      (0 < depth ∧ hit r (1 / 1000) ⊤ = none ∧
        ray_color_traced hit scatter sqrt r depth s = ((background sqrt r, s), 1, 1)) ∨
      (0 < depth ∧ ∃ rec s1, hit r (1 / 1000) ⊤ = some rec ∧
        scatter rec.mat_ptr r rec s = (none, s1) ∧
        ray_color_traced hit scatter sqrt r depth s = ((black, s1), 1, 1)) ∨
      (0 < depth ∧ ∃ rec attenuation scattered s1, hit r (1 / 1000) ⊤ = some rec ∧
        scatter rec.mat_ptr r rec s = (some (attenuation, scattered), s1) ∧
        ray_color_traced hit scatter sqrt r depth s =
          ((attenuation.mul (ray_color_traced hit scatter sqrt scattered (depth - 1) s1).1.1,
            (ray_color_traced hit scatter sqrt scattered (depth - 1) s1).1.2),
           (ray_color_traced hit scatter sqrt scattered (depth - 1) s1).2.1 + 1,
           (ray_color_traced hit scatter sqrt scattered (depth - 1) s1).2.2 + 1))) := by
  obtain ⟨e, c1, c2, c3⟩ := ray_color_traced_aux hit scatter sqrt depth.toNat r depth s rfl
  have hmax : ((depth.toNat : ℕ) : ℤ) = max depth 0 := by
    rcases le_total depth 0 with h | h
    · rw [max_eq_right h, Int.toNat_of_nonpos h]; rfl
    · rw [max_eq_left h, Int.toNat_of_nonneg h]
  refine ⟨e, c1, ?_, ?_, ?_⟩
  · rw [← hmax]; exact_mod_cast c2
  · rw [← hmax]; exact_mod_cast c3
  · by_cases hd : depth ≤ 0
    · left
      refine ⟨hd, ?_⟩
      rw [ray_color_traced, dif_pos hd]
    · right
      have hpos : 0 < depth := not_le.mp hd
      cases hh : hit r (1 / 1000) ⊤ with
      | none =>
        left
        refine ⟨hpos, rfl, ?_⟩
        rw [ray_color_traced, dif_neg hd, hh]
      | some rec =>
        right
        rcases hs : scatter rec.mat_ptr r rec s with ⟨_ | ⟨attenuation, scattered⟩, s1⟩
        · left
          refine ⟨hpos, rec, s1, rfl, hs, ?_⟩
          rw [ray_color_traced, dif_neg hd, hh]
          simp only [hs]
        · right
          refine ⟨hpos, rec, attenuation, scattered, s1, rfl, hs, ?_⟩
          rw [ray_color_traced, dif_neg hd, hh]
          simp only [hs]

/-- C8: at a positive depth, when `world.hit(r, 0.001, infinity)` reports a hit
`rec`: if the material's `scatter` succeeds with an attenuation and a scattered
ray, `ray_color` returns the element-wise product of the attenuation and
`ray_color` of the scattered ray at `depth - 1`; if `scatter` fails, it returns
black `(0,0,0)`. -/
theorem ray_color_hit_case {K M σ : Type} [LinearOrderedField K]
    (hit : ray K → K → WithTop K → Option (hit_record K M))
    (scatter : M → ray K → hit_record K M → σ → Option (color K × ray K) × σ)
    (sqrt : K → K) (r : ray K) (depth : ℤ) (s : σ) (hd : 0 < depth)
    (rec : hit_record K M) (hh : hit r (1 / 1000) ⊤ = some rec) :
    (∀ (attenuation : color K) (scattered : ray K) (s1 : σ),
      scatter rec.mat_ptr r rec s = (some (attenuation, scattered), s1) →
      (ray_color hit scatter sqrt r depth s).1 =
        ⟨attenuation.x * (ray_color hit scatter sqrt scattered (depth - 1) s1).1.x,
         attenuation.y * (ray_color hit scatter sqrt scattered (depth - 1) s1).1.y,
         attenuation.z * (ray_color hit scatter sqrt scattered (depth - 1) s1).1.z⟩ ∧
      (ray_color hit scatter sqrt r depth s).2 =
        (ray_color hit scatter sqrt scattered (depth - 1) s1).2) ∧
    (∀ s1 : σ, scatter rec.mat_ptr r rec s = (none, s1) →
      ray_color hit scatter sqrt r depth s = (⟨0, 0, 0⟩, s1)) := by
  constructor
  · intro attenuation scattered s1 hs
    rw [ray_color_scattered hit scatter sqrt r depth s hd rec hh attenuation scattered s1 hs]
    exact ⟨rfl, rfl⟩
  · intro s1 hs
    rw [ray_color_absorbed hit scatter sqrt r depth s hd rec hh s1 hs]
    rfl

/-- Witness of C8 on the floor scene over `ℚ`: a ray going straight down onto
the mirror half comes back with half of the sky colour, one onto the absorbing
half comes back black. -/
theorem ray_color_hit_case_witness :
    (ray_color floor_hit floor_scatter Rat.sqrt
        (⟨⟨0, 1, 0⟩, ⟨0, -1, 0⟩⟩ : ray ℚ) 2 0).1 = ⟨1 / 4, 7 / 20, 1 / 2⟩ ∧
    ray_color floor_hit floor_scatter Rat.sqrt
        (⟨⟨-1, 1, 0⟩, ⟨0, -1, 0⟩⟩ : ray ℚ) 2 0 = (⟨0, 0, 0⟩, 1) := by
  constructor
  · have h := (ray_color_hit_case floor_hit floor_scatter Rat.sqrt
      (⟨⟨0, 1, 0⟩, ⟨0, -1, 0⟩⟩ : ray ℚ) 2 0 (by decide)
      ⟨⟨0, 0, 0⟩, ⟨0, 1, 0⟩, true, 1, true⟩ (by simp [floor_hit])).1
      ⟨1 / 2, 1 / 2, 1 / 2⟩ ⟨⟨0, 0, 0⟩, ⟨0, 1, 0⟩⟩ 1 (by simp [floor_scatter])
    rw [h.1, ray_color_miss floor_hit floor_scatter Rat.sqrt _ _ _ (by decide)
      (by simp [floor_hit])]
    have e : Rat.sqrt 1 = 1 := by decide
    simp [background, blend, unit_vector, vec3.sdiv, vec3.length, vec3.length_squared,
      vec3.add, vec3.smul, white, sky_blue, e]
    norm_num
  · exact (ray_color_hit_case floor_hit floor_scatter Rat.sqrt
      (⟨⟨-1, 1, 0⟩, ⟨0, -1, 0⟩⟩ : ray ℚ) 2 0 (by decide)
      ⟨⟨-1, 0, 0⟩, ⟨0, 1, 0⟩, false, 1, true⟩ (by simp [floor_hit])).2 1
      (by simp [floor_scatter])

/-- C9: at a positive depth, when `world.hit(r, 0.001, infinity)` reports no hit
for a ray of non-zero direction, `ray_color` returns
`(1-t)*(1,1,1) + t*(0.5,0.7,1.0)` with `t = 0.5*(unit_direction.y + 1)` and
leaves the generator untouched; with an exact square root a ray pointing
straight up yields sky-blue `(0.5,0.7,1.0)` and one pointing straight down
yields white `(1,1,1)`. -/
theorem ray_color_miss_case {K M σ : Type} [LinearOrderedField K]
    (hit : ray K → K → WithTop K → Option (hit_record K M))
    (scatter : M → ray K → hit_record K M → σ → Option (color K × ray K) × σ)
    (sqrt : K → K) (r : ray K) (depth : ℤ) (s : σ) (hd : 0 < depth)
    (hne : r.direction ≠ ⟨0, 0, 0⟩) (hm : hit r (1 / 1000) ⊤ = none) :
    (∀ t : K, t = (1 / 2) * ((unit_vector sqrt r.direction).y + 1) →
      (ray_color hit scatter sqrt r depth s).1 =
        ⟨(1 - t) * 1 + t * (1 / 2), (1 - t) * 1 + t * (7 / 10), (1 - t) * 1 + t * 1⟩) ∧
    (ray_color hit scatter sqrt r depth s).2 = s ∧
    (IsSqrt sqrt → ∀ k : K, 0 < k → r.direction = ⟨0, k, 0⟩ →
      (ray_color hit scatter sqrt r depth s).1 = ⟨1 / 2, 7 / 10, 1⟩) ∧
    (IsSqrt sqrt → ∀ k : K, 0 < k → r.direction = ⟨0, -k, 0⟩ →
      (ray_color hit scatter sqrt r depth s).1 = ⟨1, 1, 1⟩) := by
  have hne' := hne
  rw [ray_color_miss hit scatter sqrt r depth s hd hm]
  refine ⟨?_, rfl, ?_, ?_⟩
  · intro t ht
    subst ht
    rfl
  · intro hsqrt k hk hdir
    simp only [background, hdir, (unit_vector_up sqrt hsqrt k hk).1]
    simp [blend, vec3.add, vec3.smul, white, sky_blue]
    norm_num
  · intro hsqrt k hk hdir
    simp only [background, hdir, (unit_vector_up sqrt hsqrt k hk).2]
    simp [blend, vec3.add, vec3.smul, white, sky_blue]

/-- Witness of C9 over `ℝ` with the real square root, in the world without
objects: a ray that points straight up is sky-blue, one that points straight
down is white. -/
theorem ray_color_miss_case_witness :
    (ray_color (hittable_list_hit ([] : List (ray ℝ → ℝ → WithTop ℝ → Option (hit_record ℝ Bool))))
      floor_scatter Real.sqrt ⟨⟨0, 0, 0⟩, ⟨0, 2, 0⟩⟩ 50 0).1 = ⟨1 / 2, 7 / 10, 1⟩ ∧
    (ray_color (hittable_list_hit ([] : List (ray ℝ → ℝ → WithTop ℝ → Option (hit_record ℝ Bool))))
      floor_scatter Real.sqrt ⟨⟨0, 0, 0⟩, ⟨0, -3, 0⟩⟩ 50 0).1 = ⟨1, 1, 1⟩ :=
  ⟨(ray_color_miss_case _ floor_scatter Real.sqrt ⟨⟨0, 0, 0⟩, ⟨0, 2, 0⟩⟩ 50 0 (by decide)
      (by simp) rfl).2.2.1 isSqrt_real 2 (by norm_num) rfl,
   (ray_color_miss_case _ floor_scatter Real.sqrt ⟨⟨0, 0, 0⟩, ⟨0, -3, 0⟩⟩ 50 0 (by decide)
      (by simp) rfl).2.2.2 isSqrt_real 3 (by norm_num) rfl⟩

/-- C2, as stated, fails: in the world without objects a ray of non-zero
direction traced at depth zero is black, which is the blend at no `t`, so it is
not a point of the white-to-sky-blue gradient. -/
theorem ray_color_empty_world_depth_zero_black :
    (ray_color (hittable_list_hit ([] : List (ray ℚ → ℚ → WithTop ℚ → Option (hit_record ℚ Bool))))
      floor_scatter Rat.sqrt ⟨⟨0, 0, 0⟩, ⟨0, 1, 0⟩⟩ 0 0).1 = ⟨0, 0, 0⟩ ∧
    (ray_color (hittable_list_hit ([] : List (ray ℚ → ℚ → WithTop ℚ → Option (hit_record ℚ Bool))))
      floor_scatter Rat.sqrt ⟨⟨0, 0, 0⟩, ⟨0, 1, 0⟩⟩ 0 0).1 ≠
        blend ((1 / 2) * ((unit_vector Rat.sqrt (⟨0, 1, 0⟩ : vec3 ℚ)).y + 1)) ∧
    ¬ ∃ t : ℚ,
      (ray_color (hittable_list_hit ([] : List (ray ℚ → ℚ → WithTop ℚ → Option (hit_record ℚ Bool))))
        floor_scatter Rat.sqrt ⟨⟨0, 0, 0⟩, ⟨0, 1, 0⟩⟩ 0 0).1 = blend t := by
  rw [ray_color_nonpos _ _ _ _ _ _ le_rfl]
  refine ⟨rfl, ?_, ?_⟩
  · exact (blend_ne_black _).symm
  · rintro ⟨t, ht⟩
    exact blend_ne_black t ht.symm

/-- C2, amended: in a world whose hit query reports no hit for any ray, at
every positive depth and for every ray of non-zero direction, `ray_color`
returns `(1-t)*(1,1,1) + t*(0.5,0.7,1.0)` with `t = 0.5*(unit_direction.y + 1)`;
with an exact square root `t` lies in `[0,1]`, so the colour is a point of the
white-to-sky-blue gradient; and two such rays whose normalised directions have
the same vertical component get the same colour. -/
theorem ray_color_empty_world {K M σ : Type} [LinearOrderedField K]
    (hit : ray K → K → WithTop K → Option (hit_record K M))
    (scatter : M → ray K → hit_record K M → σ → Option (color K × ray K) × σ)
    (sqrt : K → K) (r : ray K) (depth : ℤ) (s : σ)
    (hempty : ∀ (r : ray K) (t_min : K) (t_max : WithTop K), hit r t_min t_max = none)
    (hd : 0 < depth) (hne : r.direction ≠ ⟨0, 0, 0⟩) :
    (∀ t : K, t = (1 / 2) * ((unit_vector sqrt r.direction).y + 1) →
      (ray_color hit scatter sqrt r depth s).1 =
          ⟨(1 - t) * 1 + t * (1 / 2), (1 - t) * 1 + t * (7 / 10), (1 - t) * 1 + t * 1⟩ ∧
        (IsSqrt sqrt → 0 ≤ t ∧ t ≤ 1)) ∧
    (∀ (r' : ray K) (depth' : ℤ) (s' : σ), 0 < depth' → r'.direction ≠ ⟨0, 0, 0⟩ →
      (unit_vector sqrt r'.direction).y = (unit_vector sqrt r.direction).y →
      (ray_color hit scatter sqrt r' depth' s').1 = (ray_color hit scatter sqrt r depth s).1) := by
  constructor
  · intro t ht
    rw [ray_color_miss hit scatter sqrt r depth s hd (hempty _ _ _)]
    subst ht
    refine ⟨rfl, fun hsqrt => ?_⟩
    have hb := unit_vector_y_bounds sqrt hsqrt r.direction hne
    constructor <;> linarith [hb.1, hb.2]
  · intro r' depth' s' hd' _ hy
    rw [ray_color_miss hit scatter sqrt r depth s hd (hempty _ _ _),
      ray_color_miss hit scatter sqrt r' depth' s' hd' (hempty _ _ _)]
    simp only [background, hy]

/-- Witness of amended C2 over `ℝ`: the world is the list without objects, the
ray has direction `(3,4,0)`, whose normalised vertical component is `4/5`. -/
theorem ray_color_empty_world_witness :
    (ray_color (hittable_list_hit ([] : List (ray ℝ → ℝ → WithTop ℝ → Option (hit_record ℝ Bool))))
      floor_scatter Real.sqrt ⟨⟨0, 0, 0⟩, ⟨3, 4, 0⟩⟩ 50 0).1 = ⟨11 / 20, 73 / 100, 1⟩ := by
  have h := ((ray_color_empty_world
    (hittable_list_hit ([] : List (ray ℝ → ℝ → WithTop ℝ → Option (hit_record ℝ Bool))))
    floor_scatter Real.sqrt ⟨⟨0, 0, 0⟩, ⟨3, 4, 0⟩⟩ 50 0 (fun _ _ _ => rfl) (by decide)
    (by simp)).1 _ rfl).1
  rw [h]
  have e : Real.sqrt (3 * 3 + 4 * 4 + 0 * 0) = 5 := by
    rw [show (3 * 3 + 4 * 4 + 0 * 0 : ℝ) = 5 * 5 by norm_num]
    exact Real.sqrt_mul_self (by norm_num)
  simp only [unit_vector, vec3.sdiv, vec3.length, vec3.length_squared, e]
  norm_num

/-! ### Rounding to the nearest double -/

theorem clamp_bounds {K : Type} [LinearOrder K] (x lo hi : K) (h : lo ≤ hi) :
    lo ≤ clamp x lo hi ∧ clamp x lo hi ≤ hi := by
  unfold clamp
  split_ifs with h1 h2
  · exact ⟨le_rfl, h⟩
  · exact ⟨h, le_rfl⟩
  · exact ⟨not_lt.mp h1, not_lt.mp h2⟩

theorem clamp_of_ge {K : Type} [LinearOrder K] (x lo hi : K) (h : lo ≤ hi) (hx : hi ≤ x) :
    clamp x lo hi = hi := by
  unfold clamp
  split_ifs with h1 h2
  · exact absurd (lt_of_le_of_lt hx h1) (not_lt.mpr h)
  · rfl
  · exact le_antisymm (not_lt.mp h2) hx

theorem isRounding_zero {K : Type} [LinearOrderedField K] (rnd : K → K)
    (h : IsRounding rnd) : rnd 0 = 0 := by
  have := h.2 0
  simpa using this

theorem isRounding_nonneg {K : Type} [LinearOrderedField K] (rnd : K → K)
    (h : IsRounding rnd) (x : K) (hx : 0 ≤ x) : 0 ≤ rnd x := by
  have := h.1 hx
  rwa [isRounding_zero rnd h] at this

theorem isRounding_id {K : Type} [LinearOrderedField K] : IsRounding (fun x : K => x) := by
  refine ⟨fun _ _ h => h, fun x => ?_⟩
  simp only [sub_self, abs_zero]
  positivity

theorem isRounding_top {K : Type} [LinearOrderedField K] (rnd : K → K)
    (h : IsRounding rnd) :
    0 ≤ rnd (999 / 1000) ∧ 255 ≤ rnd (256 * rnd (999 / 1000)) ∧
      rnd (256 * rnd (999 / 1000)) < 256 := by
  have h1 := h.2 (999 / 1000)
  rw [abs_of_pos (by norm_num : (0 : K) < 999 / 1000), abs_le] at h1
  have hc : (0 : K) < rnd (999 / 1000) := by
    have : (0 : K) < 999 / 1000 - 999 / 1000 / 2 ^ 53 := by norm_num
    linarith [h1.1]
  have h2 := h.2 (256 * rnd (999 / 1000))
  rw [abs_of_pos (by linarith : (0 : K) < 256 * rnd (999 / 1000)), abs_le] at h2
  have e : ((2 : K) ^ 53) = 9007199254740992 := by norm_num
  rw [e] at h1 h2
  refine ⟨hc.le, ?_, ?_⟩
  · linarith [h1.1, h2.1]
  · linarith [h1.2, h2.2]

theorem round_even_bounds {K : Type} [LinearOrderedField K] [FloorRing K] (x : K) :
    (round_even x : K) - x ≤ 1 / 2 ∧ x - (round_even x : K) ≤ 1 / 2 := by
  have h1 := Int.floor_le x
  have h2 := Int.lt_floor_add_one x
  unfold round_even
  split_ifs with a b c
  · constructor <;> linarith
  · push_cast; constructor <;> linarith
  · have : x - (⌊x⌋ : K) = 1 / 2 := le_antisymm (not_lt.mp b) (not_lt.mp a)
    constructor <;> linarith
  · have : x - (⌊x⌋ : K) = 1 / 2 := le_antisymm (not_lt.mp b) (not_lt.mp a)
    push_cast; constructor <;> linarith

theorem round_even_intCast {K : Type} [LinearOrderedField K] [FloorRing K] (n : ℤ) :
    round_even (n : K) = n := by
  unfold round_even
  simp

theorem round_even_mono {K : Type} [LinearOrderedField K] [FloorRing K] (x y : K)
    (h : x ≤ y) : round_even x ≤ round_even y := by
  have hf : ⌊x⌋ ≤ ⌊y⌋ := Int.floor_mono h
  have hx : round_even x = ⌊x⌋ ∨ round_even x = ⌊x⌋ + 1 := by
    unfold round_even; split_ifs <;> simp
  have hy : round_even y = ⌊y⌋ ∨ round_even y = ⌊y⌋ + 1 := by
    unfold round_even; split_ifs <;> simp
  rcases hf.lt_or_eq with hlt | heq
  · rcases hx with hx | hx <;> rcases hy with hy | hy <;> omega
  · unfold round_even
    rw [heq]
    split_ifs <;> first | omega | (exfalso; linarith)

theorem int_log_eq {K : Type} [LinearOrderedField K] [FloorRing K] (x : K) (e : ℤ)
    (h1 : (2 : K) ^ e ≤ x) (h2 : x < (2 : K) ^ (e + 1)) : Int.log 2 x = e := by
  have hx : 0 < x := lt_of_lt_of_le (zpow_pos (by norm_num) e) h1
  have hb : 1 < 2 := by norm_num
  apply le_antisymm
  · have := (Int.lt_zpow_iff_log_lt hb hx (x := e + 1)).mp (by simpa using h2)
    omega
  · exact (Int.zpow_le_iff_le_log hb hx).mp (by simpa using h1)

theorem round_pos_spec {K : Type} [LinearOrderedField K] [FloorRing K] (x : K) (hx : 0 < x) :
    (2 : K) ^ Int.log 2 x ≤ round_pos x ∧ round_pos x ≤ (2 : K) ^ (Int.log 2 x + 1) ∧
      |round_pos x - x| ≤ x / 2 ^ 53 := by
  have hb : 1 < 2 := by norm_num
  have l1 : (2 : K) ^ Int.log 2 x ≤ x := by
    simpa using Int.zpow_log_le_self (R := K) hb hx
  have l2 : x < (2 : K) ^ (Int.log 2 x + 1) := by
    simpa using Int.lt_zpow_succ_log_self (R := K) hb x
  set e0 := Int.log 2 x with he0
  have hp : (0 : K) < (2 : K) ^ (e0 - 52) := zpow_pos (by norm_num) _
  have e1 : (2 : K) ^ e0 = 2 ^ (52 : ℕ) * (2 : K) ^ (e0 - 52) := by
    rw [← zpow_natCast, ← zpow_add₀ (by norm_num : (2 : K) ≠ 0)]; congr 1; omega
  have e2 : (2 : K) ^ (e0 + 1) = 2 ^ (53 : ℕ) * (2 : K) ^ (e0 - 52) := by
    rw [← zpow_natCast, ← zpow_add₀ (by norm_num : (2 : K) ≠ 0)]; congr 1; omega
  have t1 : (((2 ^ 52 : ℤ)) : K) ≤ x / (2 : K) ^ (e0 - 52) := by
    have c : (((2 ^ 52 : ℤ)) : K) = 2 ^ (52 : ℕ) := by norm_cast
    rw [le_div_iff₀ hp, c, ← e1]; exact l1
  have t2 : x / (2 : K) ^ (e0 - 52) ≤ (((2 ^ 53 : ℤ)) : K) := by
    have c : (((2 ^ 53 : ℤ)) : K) = 2 ^ (53 : ℕ) := by norm_cast
    rw [div_le_iff₀ hp, c, ← e2]; exact l2.le
  have n1 := round_even_mono _ _ t1
  have n2 := round_even_mono _ _ t2
  rw [round_even_intCast] at n1 n2
  have hb := round_even_bounds (x / (2 : K) ^ (e0 - 52))
  have hr : round_pos x = (round_even (x / (2 : K) ^ (e0 - 52)) : K) * (2 : K) ^ (e0 - 52) := by
    unfold round_pos; rw [if_neg (not_le.mpr hx)]
  set n := round_even (x / (2 : K) ^ (e0 - 52)) with hn
  have n1K : ((2 : K) ^ (52 : ℕ)) ≤ (n : K) := by exact_mod_cast n1
  have n2K : (n : K) ≤ ((2 : K) ^ (53 : ℕ)) := by exact_mod_cast n2
  have hxe : x = x / (2 : K) ^ (e0 - 52) * (2 : K) ^ (e0 - 52) := by
    field_simp
  refine ⟨?_, ?_, ?_⟩
  · rw [hr, e1]; exact mul_le_mul_of_nonneg_right n1K hp.le
  · rw [hr, e2]; exact mul_le_mul_of_nonneg_right n2K hp.le
  · rw [hr, abs_le]
    have hhalf : (2 : K) ^ (e0 - 52) * (1 / 2) ≤ x / 2 ^ 53 := by
      rw [le_div_iff₀ (by positivity)]
      calc (2 : K) ^ (e0 - 52) * (1 / 2) * 2 ^ 53 = 2 ^ (52 : ℕ) * (2 : K) ^ (e0 - 52) := by ring
        _ = (2 : K) ^ e0 := e1.symm
        _ ≤ x := l1
    constructor
    · nlinarith [hb.1, hb.2]
    · nlinarith [hb.1, hb.2]

theorem round_pos_nonneg {K : Type} [LinearOrderedField K] [FloorRing K] (x : K) :
    0 ≤ round_pos x := by
  rcases le_or_lt x 0 with h | h
  · unfold round_pos; rw [if_pos h]
  · exact le_trans (zpow_pos (by norm_num) _).le (round_pos_spec x h).1

theorem round_pos_mono {K : Type} [LinearOrderedField K] [FloorRing K] (x y : K)
    (h : x ≤ y) : round_pos x ≤ round_pos y := by
  rcases le_or_lt x 0 with hx | hx
  · have : round_pos x = 0 := by unfold round_pos; rw [if_pos hx]
    rw [this]; exact round_pos_nonneg y
  · have hy : 0 < y := lt_of_lt_of_le hx h
    have hlog : Int.log 2 x ≤ Int.log 2 y := Int.log_mono_right hx h
    rcases hlog.lt_or_eq with hlt | heq
    · calc round_pos x ≤ (2 : K) ^ (Int.log 2 x + 1) := (round_pos_spec x hx).2.1
        _ ≤ (2 : K) ^ Int.log 2 y := zpow_le_zpow_right₀ (by norm_num) (by omega)
        _ ≤ round_pos y := (round_pos_spec y hy).1
    · unfold round_pos
      rw [if_neg (not_le.mpr hx), if_neg (not_le.mpr hy), heq]
      have hp : (0 : K) < (2 : K) ^ (Int.log 2 y - 52) := zpow_pos (by norm_num) _
      apply mul_le_mul_of_nonneg_right _ hp.le
      have := round_even_mono (x / (2 : K) ^ (Int.log 2 y - 52)) (y / (2 : K) ^ (Int.log 2 y - 52))
        (div_le_div_of_nonneg_right h hp.le)
      exact_mod_cast this

theorem round_pos_zero {K : Type} [LinearOrderedField K] [FloorRing K] :
    round_pos (0 : K) = 0 := by
  unfold round_pos; rw [if_pos le_rfl]

theorem isRounding_round_double {K : Type} [LinearOrderedField K] [FloorRing K] :
    IsRounding (round_double : K → K) := by
  constructor
  · intro x y h
    show round_double x ≤ round_double y
    unfold round_double
    by_cases hx : 0 ≤ x
    · have hy : 0 ≤ y := le_trans hx h
      rw [if_pos hx, if_pos hy]
      exact round_pos_mono x y h
    · rw [if_neg hx]
      by_cases hy : 0 ≤ y
      · rw [if_pos hy]
        linarith [round_pos_nonneg (-x), round_pos_nonneg y]
      · rw [if_neg hy]
        have := round_pos_mono (-y) (-x) (by linarith)
        linarith
  · intro x
    unfold round_double
    rcases lt_trichotomy x 0 with hx | hx | hx
    · rw [if_neg (not_le.mpr hx)]
      have h := (round_pos_spec (-x) (by linarith)).2.2
      rw [abs_of_neg hx]
      rw [abs_le] at h ⊢
      constructor <;> linarith [h.1, h.2]
    · subst hx
      rw [if_pos le_rfl, round_pos_zero]
      simp
    · rw [if_pos hx.le, abs_of_pos hx]
      exact (round_pos_spec x hx).2.2

theorem round_even_eq {K : Type} [LinearOrderedField K] [FloorRing K] (t : K) (n : ℤ)
    (h1 : (n : K) - 1 / 2 < t) (h2 : t < (n : K) + 1 / 2) : round_even t = n := by
  have hb := round_even_bounds t
  have a : ((round_even t - n : ℤ) : K) < 1 := by push_cast; linarith [hb.1]
  have b : (-1 : K) < ((round_even t - n : ℤ) : K) := by push_cast; linarith [hb.2]
  have a' : round_even t - n < 1 := by exact_mod_cast a
  have b' : -1 < round_even t - n := by exact_mod_cast b
  omega

theorem round_double_eq {K : Type} [LinearOrderedField K] [FloorRing K] (x : K) (e n : ℤ)
    (h1 : (2 : K) ^ (e + 52) ≤ x) (h2 : x < (2 : K) ^ (e + 53))
    (h3 : (n : K) - 1 / 2 < x / (2 : K) ^ e) (h4 : x / (2 : K) ^ e < (n : K) + 1 / 2) :
    round_double x = (n : K) * (2 : K) ^ e := by
  have hx : 0 < x := lt_of_lt_of_le (zpow_pos (by norm_num) _) h1
  have hlog : Int.log 2 x = e + 52 := int_log_eq x (e + 52) h1 (by
    have : e + 52 + 1 = e + 53 := by ring
    rw [this]; exact h2)
  unfold round_double round_pos
  rw [if_pos hx.le, if_neg (not_le.mpr hx), hlog]
  have : e + 52 - 52 = e := by ring
  rw [this, round_even_eq _ n h3 h4]

theorem int_log_four_eq {K : Type} [LinearOrderedField K] [FloorRing K] (x : K) (e : ℤ)
    (h1 : (4 : K) ^ e ≤ x) (h2 : x < (4 : K) ^ (e + 1)) : Int.log 4 x = e := by
  have hx : 0 < x := lt_of_lt_of_le (zpow_pos (by norm_num) e) h1
  have hb : 1 < 4 := by norm_num
  apply le_antisymm
  · have := (Int.lt_zpow_iff_log_lt hb hx (x := e + 1)).mp (by simpa using h2)
    omega
  · exact (Int.zpow_le_iff_le_log hb hx).mp (by simpa using h1)

theorem sqrt_double_eq {K : Type} [LinearOrderedField K] [FloorRing K] (x : K) (e : ℤ)
    (N n w : ℕ) (h1 : (4 : K) ^ (e + 52) ≤ x) (h2 : x < (4 : K) ^ (e + 53))
    (hN1 : (N : K) ≤ x / (4 : K) ^ e) (hN2 : x / (4 : K) ^ e < (N : K) + 1)
    (hn1 : n * n ≤ N) (hn2 : N < (n + 1) * (n + 1))
    (hw : (x / (4 : K) ^ e < (n : K) * n + n + 1 / 4 ∧ w = n) ∨
      ((n : K) * n + n + 1 / 4 < x / (4 : K) ^ e ∧ w = n + 1)) :
    sqrt_double x = (w : K) * (2 : K) ^ e := by
  have hx : 0 < x := lt_of_lt_of_le (zpow_pos (by norm_num) _) h1
  have hlog : Int.log 4 x = e + 52 := int_log_four_eq x (e + 52) h1 (by
    have : e + 52 + 1 = e + 53 := by ring
    rw [this]; exact h2)
  have hm0 : 0 ≤ x / (4 : K) ^ e := div_nonneg hx.le (zpow_pos (by norm_num) _).le
  have hfl : ⌊x / (4 : K) ^ e⌋₊ = N := (Nat.floor_eq_iff hm0).mpr ⟨hN1, hN2⟩
  have hsq : Nat.sqrt N = n := (Nat.eq_sqrt.mpr ⟨hn1, hn2⟩).symm
  unfold sqrt_double
  rw [if_neg (not_le.mpr hx), hlog]
  have : e + 52 - 52 = e := by ring
  simp only [this, hfl, hsq]
  rcases hw with ⟨hlt, rfl⟩ | ⟨hgt, rfl⟩
  · rw [if_pos hlt]
  · rw [if_neg (not_lt.mpr hgt.le), if_pos hgt]

/-! ### The coordinates handed to the camera -/

/-- C6, as stated, fails: in the last column of a 400 pixel wide image a jitter
of `1/2` gives `u = 799/798 > 1`, and in the last row of a 266 pixel high image
it gives `v = 531/530 > 1`. -/
theorem sample_u_last_column_exceeds_one :
    (0 : ℤ) ≤ 399 ∧ (399 : ℤ) < 400 ∧ (0 : ℤ) ≤ 265 ∧ (265 : ℤ) < 266 ∧
    (0 : ℚ) ≤ 1 / 2 ∧ (1 / 2 : ℚ) < 1 ∧
    sample_u 400 399 (1 / 2 : ℚ) = 799 / 798 ∧ ¬ sample_u 400 399 (1 / 2 : ℚ) ≤ 1 ∧
    sample_v 266 265 (1 / 2 : ℚ) = 531 / 530 ∧ ¬ sample_v 266 265 (1 / 2 : ℚ) ≤ 1 := by
  refine ⟨by decide, by decide, by decide, by decide, by norm_num, by norm_num, ?_, ?_, ?_, ?_⟩ <;>
    norm_num [sample_u, sample_v]

theorem sample_coordinate_range {K : Type} [LinearOrderedField K] (n i : ℤ) (d : K)
    (hi0 : 0 ≤ i) (hi : i < n) (hn : 2 ≤ n) (hd0 : 0 ≤ d) (hd : d < 1) :
    (0 ≤ ((i : K) + d) / (((n - 1 : ℤ)) : K) ∧
      ((i : K) + d) / (((n - 1 : ℤ)) : K) < (n : K) / ((n : K) - 1)) ∧
    (((i : K) + d) / (((n - 1 : ℤ)) : K) ≤ 1 ↔ (i : K) + d ≤ (n : K) - 1) ∧
    (i + 1 < n → ((i : K) + d) / (((n - 1 : ℤ)) : K) ≤ 1) := by
  have hden : (0 : K) < (((n - 1 : ℤ)) : K) := by
    have : (0 : ℤ) < n - 1 := by omega
    exact_mod_cast this
  have hcast : (((n - 1 : ℤ)) : K) = (n : K) - 1 := by push_cast; ring
  have hiK : (0 : K) ≤ (i : K) := by exact_mod_cast hi0
  have hin : (i : K) + 1 ≤ (n : K) := by
    have : i + 1 ≤ n := by omega
    exact_mod_cast this
  have hiff : ((i : K) + d) / (((n - 1 : ℤ)) : K) ≤ 1 ↔ (i : K) + d ≤ (n : K) - 1 := by
    rw [div_le_one hden, hcast]
  refine ⟨⟨?_, ?_⟩, hiff, ?_⟩
  · exact div_nonneg (by linarith) hden.le
  · rw [← hcast]
    exact div_lt_div_of_pos_right (by linarith) hden
  · intro h
    rw [hiff]
    have : (i : K) + 1 + 1 ≤ (n : K) := by
      have : i + 1 + 1 ≤ n := by omega
      exact_mod_cast this
    linarith

/-- C6, amended: for an image at least two pixels wide and high, a pixel
`(i, j)` of the image and jitter offsets of `[0,1)`, the coordinates handed
to `get_ray` satisfy `0 <= u < imageWidth / (imageWidth - 1)` and
`0 <= v < imageHeight / (imageHeight - 1)`; `u <= 1` holds exactly when
`i + offset <= imageWidth - 1`, hence in every column but the last, and
likewise `v <= 1` exactly when `j + offset <= imageHeight - 1`, hence in
every row but the last. -/
theorem sample_coordinates_range {K : Type} [LinearOrderedField K]
    (image_width image_height i j : ℤ) (d1 d2 : K)
    (hi0 : 0 ≤ i) (hi : i < image_width) (hj0 : 0 ≤ j) (hj : j < image_height)
    (hw : 2 ≤ image_width) (hh : 2 ≤ image_height)
    (h10 : 0 ≤ d1) (h11 : d1 < 1) (h20 : 0 ≤ d2) (h21 : d2 < 1) :
    (0 ≤ sample_u image_width i d1 ∧
      sample_u image_width i d1 < (image_width : K) / ((image_width : K) - 1)) ∧
    (0 ≤ sample_v image_height j d2 ∧
      sample_v image_height j d2 < (image_height : K) / ((image_height : K) - 1)) ∧
    (sample_u image_width i d1 ≤ 1 ↔ (i : K) + d1 ≤ (image_width : K) - 1) ∧
    (sample_v image_height j d2 ≤ 1 ↔ (j : K) + d2 ≤ (image_height : K) - 1) ∧
    (i + 1 < image_width → sample_u image_width i d1 ≤ 1) ∧
    (j + 1 < image_height → sample_v image_height j d2 ≤ 1) := by
  obtain ⟨a1, a2, a3⟩ := sample_coordinate_range image_width i d1 hi0 hi hw h10 h11
  obtain ⟨b1, b2, b3⟩ := sample_coordinate_range image_height j d2 hj0 hj hh h20 h21
  exact ⟨a1, b1, a2, b2, a3, b3⟩

/-- Witness of amended C6 over `ℚ`: pixel `(398, 265)` of the 400 by 266 image
with jitter `3/4` and `1/2`: `u` is at most one, `v` is not. -/
theorem sample_coordinates_range_witness :
    sample_u 400 398 (3 / 4 : ℚ) ≤ 1 ∧
    (0 ≤ sample_v 266 265 (1 / 2 : ℚ) ∧ sample_v 266 265 (1 / 2 : ℚ) < 266 / (266 - 1)) :=
  ⟨(sample_coordinates_range 400 266 398 265 (3 / 4 : ℚ) (1 / 2) (by decide) (by decide)
      (by decide) (by decide) (by decide) (by decide) (by norm_num) (by norm_num)
      (by norm_num) (by norm_num)).2.2.2.2.1 (by decide),
   by
    simpa using (sample_coordinates_range 400 266 398 265 (3 / 4 : ℚ) (1 / 2) (by decide)
      (by decide) (by decide) (by decide) (by decide) (by decide) (by norm_num) (by norm_num)
      (by norm_num) (by norm_num)).2.1⟩

/-! ### The writes of the render loop -/

theorem render_row_upto_succ {K M σ : Type} [LinearOrderedField K] [FloorRing K]
    (E : render_setup K M σ) (j : ℤ) (n : ℕ) (st : List pixel_write × σ) :
    render_row_upto E j (n + 1) st =
      ((render_row_upto E j n st).1 ++
          [(render_pixel E (n : ℤ) j (render_row_upto E j n st).2).1],
        (render_pixel E (n : ℤ) j (render_row_upto E j n st).2).2) := by
  simp [render_row_upto, List.range_succ, List.foldl_append]

theorem render_row_upto_locs {K M σ : Type} [LinearOrderedField K] [FloorRing K]
    (E : render_setup K M σ) (j : ℤ) (n : ℕ) (st : List pixel_write × σ) :
    (render_row_upto E j n st).1.map pixel_write.loc =
      st.1.map pixel_write.loc ++ (List.range n).map (fun (i : ℕ) => ((i : ℤ), j)) := by
  induction n with
  | zero => simp [render_row_upto]
  | succ n ih =>
    rw [render_row_upto_succ]
    simp [ih, List.range_succ, render_pixel, pixel_write.loc]

theorem render_upto_succ {K M σ : Type} [LinearOrderedField K] [FloorRing K]
    (E : render_setup K M σ) (n : ℕ) (st : List pixel_write × σ) :
    render_upto E (n + 1) st = render_row E (n : ℤ) (render_upto E n st) := by
  simp [render_upto, List.range_succ, List.foldl_append]

theorem render_upto_locs {K M σ : Type} [LinearOrderedField K] [FloorRing K]
    (E : render_setup K M σ) (n : ℕ) (st : List pixel_write × σ) :
    (render_upto E n st).1.map pixel_write.loc =
      st.1.map pixel_write.loc ++ (List.range n).flatMap
        (fun (j : ℕ) =>
          (List.range E.image_width.toNat).map (fun (i : ℕ) => ((i : ℤ), (j : ℤ)))) := by
  induction n with
  | zero => simp [render_upto]
  | succ n ih =>
    rw [render_upto_succ, render_row, render_row_upto_locs, ih]
    simp [List.range_succ, List.flatMap_append]

theorem filter_eq_length_one {α : Type} [DecidableEq α] (l : List α) (a : α)
    (hnd : l.Nodup) (hm : a ∈ l) : (l.filter (fun x => decide (x = a))).length = 1 := by
  induction l with
  | nil => simp at hm
  | cons x l ih =>
    rw [List.nodup_cons] at hnd
    by_cases hx : x = a
    · subst hx
      have hnil : l.filter (fun y => decide (y = x)) = [] := by
        rw [List.filter_eq_nil_iff]
        intro y hy
        simp only [decide_eq_true_eq]
        rintro rfl
        exact hnd.1 hy
      simp [List.filter_cons, hnil]
    · have hm' : a ∈ l := by
        rcases List.mem_cons.mp hm with h | h
        · exact absurd h.symm hx
        · exact h
      simp [List.filter_cons, hx, ih hnd.2 hm']

theorem mem_iteration_locs (image_width image_height a b : ℤ) :
    (a, b) ∈ iteration_locs image_width image_height ↔
      0 ≤ a ∧ a < image_width ∧ 0 ≤ b ∧ b < image_height := by
  simp only [iteration_locs, List.mem_flatMap, List.mem_map, List.mem_range, Prod.mk.injEq]
  constructor
  · rintro ⟨j, hj, i, hi, rfl, rfl⟩
    omega
  · rintro ⟨h1, h2, h3, h4⟩
    exact ⟨b.toNat, by omega, a.toNat, by omega, by omega, by omega⟩

theorem length_iteration_locs (image_width image_height : ℤ) :
    (iteration_locs image_width image_height).length =
      image_width.toNat * image_height.toNat := by
  unfold iteration_locs
  generalize image_height.toNat = n
  induction n with
  | zero => simp
  | succ n ih =>
    rw [List.range_succ, List.flatMap_append, List.length_append, ih]
    simp [Nat.mul_succ]

theorem nodup_iteration_locs (image_width image_height : ℤ) :
    (iteration_locs image_width image_height).Nodup := by
  unfold iteration_locs
  rw [List.nodup_flatMap]
  constructor
  · intro j _
    refine (List.nodup_range _).map ?_
    intro a b hab
    simp only [Prod.mk.injEq, Nat.cast_inj, and_true] at hab
    exact hab
  · refine (List.nodup_range _).pairwise_of_forall_ne ?_
    intro a _ b _ hne
    intro x hx1 hx2
    rw [List.mem_map] at hx1 hx2
    obtain ⟨i1, _, rfl⟩ := hx1
    obtain ⟨i2, _, h2⟩ := hx2
    simp only [Prod.mk.injEq, Nat.cast_inj] at h2
    exact hne h2.2.symm

/-- C5: the render loop makes one `setPixel` call per iteration, at the
location `(i, j)` of that iteration; the locations written, in loop order, are
exactly the pixels of the image, so every `(i, j)` with `0 <= i < imageWidth`
and `0 <= j < imageHeight` is written exactly once, no write falls outside the
image, and no two iterations write the same location. -/
theorem render_writes_each_pixel_once {K M σ : Type} [LinearOrderedField K] [FloorRing K]
    (E : render_setup K M σ) (s : σ) :
    (render E s).1.map pixel_write.loc = iteration_locs E.image_width E.image_height ∧
    (∀ (i j : ℤ) (s1 : σ), (render_pixel E i j s1).1.loc = (i, j)) ∧
    (∀ i j : ℤ, 0 ≤ i → i < E.image_width → 0 ≤ j → j < E.image_height →
      ((render E s).1.filter (fun w => decide (w.loc = (i, j)))).length = 1) ∧
    (∀ w ∈ (render E s).1,
      0 ≤ w.i ∧ w.i < E.image_width ∧ 0 ≤ w.j ∧ w.j < E.image_height) ∧
    ((render E s).1.map pixel_write.loc).Nodup ∧
    (render E s).1.length = E.image_width.toNat * E.image_height.toNat := by
  have hlocs : (render E s).1.map pixel_write.loc =
      iteration_locs E.image_width E.image_height := by
    rw [render, render_upto_locs]
    simp [iteration_locs]
  have hnd := nodup_iteration_locs E.image_width E.image_height
  refine ⟨hlocs, fun _ _ _ => rfl, ?_, ?_, ?_, ?_⟩
  · intro i j h1 h2 h3 h4
    have h := filter_eq_length_one _ (i, j) hnd
      ((mem_iteration_locs _ _ i j).mpr ⟨h1, h2, h3, h4⟩)
    rw [← hlocs, List.filter_map, List.length_map] at h
    exact h
  · intro w hw
    have hm : w.loc ∈ (render E s).1.map pixel_write.loc := List.mem_map_of_mem _ hw
    rw [hlocs] at hm
    exact (mem_iteration_locs _ _ w.i w.j).mp hm
  · rw [hlocs]; exact hnd
  · have hl := congrArg List.length hlocs
    rw [List.length_map] at hl
    rw [hl]
    exact length_iteration_locs _ _

/-- Witness of C5: the floor scene rendered at three by two pixels with two
samples; pixel `(2, 1)` is written exactly once. -/
theorem render_writes_each_pixel_once_witness :
    ((render (floor_setup Rat.sqrt 3 2 2 5) 0).1.filter
      (fun w => decide (w.loc = (2, 1)))).length = 1 :=
  (render_writes_each_pixel_once (floor_setup Rat.sqrt 3 2 2 5) 0).2.2.1 2 1
    (by decide) (by decide) (by decide) (by decide)

/-! ### The range of the colours -/

theorem black_within {K : Type} [LinearOrderedField K] (b : K) (hb : 0 ≤ b) :
    (black : color K).within b := by
  simp [black, vec3.within, hb]

theorem mul_unit_range {K : Type} [LinearOrderedField K] (a c : color K)
    (ha : a.unit_range) (hc : c.unit_range) : (a.mul c).unit_range := by
  obtain ⟨⟨a1, a2⟩, ⟨a3, a4⟩, ⟨a5, a6⟩⟩ := ha
  obtain ⟨⟨c1, c2⟩, ⟨c3, c4⟩, ⟨c5, c6⟩⟩ := hc
  simp only [vec3.unit_range, vec3.within, vec3.mul]
  refine ⟨⟨mul_nonneg a1 c1, ?_⟩, ⟨mul_nonneg a3 c3, ?_⟩, ⟨mul_nonneg a5 c5, ?_⟩⟩ <;> nlinarith

theorem add_within {K : Type} [LinearOrderedField K] (a c : color K) (b : K)
    (ha : a.within b) (hc : c.unit_range) : (a.add c).within (b + 1) := by
  obtain ⟨⟨a1, a2⟩, ⟨a3, a4⟩, ⟨a5, a6⟩⟩ := ha
  obtain ⟨⟨c1, c2⟩, ⟨c3, c4⟩, ⟨c5, c6⟩⟩ := hc
  simp only [vec3.within, vec3.add]
  refine ⟨⟨?_, ?_⟩, ⟨?_, ?_⟩, ⟨?_, ?_⟩⟩ <;> linarith

theorem background_unit_range {K : Type} [LinearOrderedField K] (sqrt : K → K)
    (hsqrt : IsSqrt sqrt) (r : ray K) (hne : r.direction ≠ ⟨0, 0, 0⟩) :
    (background sqrt r).unit_range := by
  have hb := unit_vector_y_bounds sqrt hsqrt r.direction hne
  exact blend_unit_range _ (by linarith [hb.1]) (by linarith [hb.2])

theorem ray_color_unit_range_aux {K M σ : Type} [LinearOrderedField K]
    (hit : ray K → K → WithTop K → Option (hit_record K M))
    (scatter : M → ray K → hit_record K M → σ → Option (color K × ray K) × σ)
    (sqrt : K → K) (hsqrt : IsSqrt sqrt)
    (hatt : ∀ (m : M) (r : ray K) (rec : hit_record K M) (s : σ) (a : color K)
      (sc : ray K) (s1 : σ), scatter m r rec s = (some (a, sc), s1) → a.unit_range)
    (hsc : ∀ (m : M) (r : ray K) (rec : hit_record K M) (s : σ) (a : color K)
      (sc : ray K) (s1 : σ), r.direction ≠ ⟨0, 0, 0⟩ →
      scatter m r rec s = (some (a, sc), s1) → sc.direction ≠ ⟨0, 0, 0⟩)
    (n : ℕ) :
    ∀ (r : ray K) (depth : ℤ) (s : σ), depth.toNat = n → r.direction ≠ ⟨0, 0, 0⟩ →
      (ray_color hit scatter sqrt r depth s).1.unit_range := by
  induction n with
  | zero =>
    intro r depth s hn _
    rw [ray_color_nonpos hit scatter sqrt r depth s (by omega)]
    exact black_within 1 zero_le_one
  | succ n ih =>
    intro r depth s hn hne
    have hd : 0 < depth := by omega
    cases hh : hit r (1 / 1000) ⊤ with
    | none =>
      rw [ray_color_miss hit scatter sqrt r depth s hd hh]
      exact background_unit_range sqrt hsqrt r hne
    | some rec =>
      rcases hs : scatter rec.mat_ptr r rec s with ⟨_ | ⟨a, sc⟩, s1⟩
      · rw [ray_color_absorbed hit scatter sqrt r depth s hd rec hh s1 hs]
        exact black_within 1 zero_le_one
      · rw [ray_color_scattered hit scatter sqrt r depth s hd rec hh a sc s1 hs]
        exact mul_unit_range _ _ (hatt _ _ _ _ _ _ _ hs)
          (ih sc (depth - 1) s1 (by omega) (hsc _ _ _ _ _ _ _ hne hs))

theorem iterate_sample_step_within {K M σ : Type} [LinearOrderedField K]
    (E : render_setup K M σ)
    (hray : ∀ (r : ray K) (depth : ℤ) (s : σ), r.direction ≠ ⟨0, 0, 0⟩ →
      (ray_color E.hit E.scatter E.sqrt r depth s).1.unit_range)
    (hcam : ∀ (u v : K) (s : σ), (E.get_ray u v s).1.direction ≠ ⟨0, 0, 0⟩)
    (i j : ℤ) (s : σ) (n : ℕ) :
    ((sample_step E i j)^[n] (black, s)).1.within (n : K) := by
  induction n with
  | zero =>
    simp only [Function.iterate_zero, id_eq, Nat.cast_zero]
    exact black_within 0 le_rfl
  | succ n ih =>
    rw [Function.iterate_succ_apply']
    push_cast
    exact add_within _ _ _ ih (hray _ _ _ (hcam _ _ _))

/-- C10: with an exact square root, if every attenuation a material's `scatter`
produces has its three channels in `[0,1]` and every ray traced (the camera
rays and the scattered rays) has a non-zero direction, then every channel of
the colour `ray_color` returns lies in `[0,1]`, for every ray of non-zero
direction, depth and generator state; hence every channel of the per-pixel
sum lies between zero and the number of samples taken, which is
`samplesPerPixel` when that is not negative, and the argument `scale * sum` of
the gamma square root is not negative, in exact arithmetic and, under a
monotone rounding of relative error `2^-53`, as the doubles compute it. -/
theorem ray_color_channels_bounded {K M σ : Type} [LinearOrderedField K]
    (E : render_setup K M σ) (hsqrt : IsSqrt E.sqrt)
    (hatt : ∀ (m : M) (r : ray K) (rec : hit_record K M) (s : σ) (a : color K)
      (sc : ray K) (s1 : σ), E.scatter m r rec s = (some (a, sc), s1) → a.unit_range)
    (hsc : ∀ (m : M) (r : ray K) (rec : hit_record K M) (s : σ) (a : color K)
      (sc : ray K) (s1 : σ), r.direction ≠ ⟨0, 0, 0⟩ →
      E.scatter m r rec s = (some (a, sc), s1) → sc.direction ≠ ⟨0, 0, 0⟩)
    (hcam : ∀ (u v : K) (s : σ), (E.get_ray u v s).1.direction ≠ ⟨0, 0, 0⟩) :
    (∀ (r : ray K) (depth : ℤ) (s : σ), r.direction ≠ ⟨0, 0, 0⟩ →
      (0 ≤ (ray_color E.hit E.scatter E.sqrt r depth s).1.x ∧
        (ray_color E.hit E.scatter E.sqrt r depth s).1.x ≤ 1) ∧
      (0 ≤ (ray_color E.hit E.scatter E.sqrt r depth s).1.y ∧
        (ray_color E.hit E.scatter E.sqrt r depth s).1.y ≤ 1) ∧
      (0 ≤ (ray_color E.hit E.scatter E.sqrt r depth s).1.z ∧
        (ray_color E.hit E.scatter E.sqrt r depth s).1.z ≤ 1)) ∧
    (∀ (i j : ℤ) (s : σ),
      (pixel_color E i j s).1.within ((E.samples_per_pixel.toNat : ℕ) : K) ∧
      (0 ≤ E.samples_per_pixel →
        (pixel_color E i j s).1.within (E.samples_per_pixel : K)) ∧
      0 ≤ 1 / (E.samples_per_pixel : K) * (pixel_color E i j s).1.x ∧
      0 ≤ 1 / (E.samples_per_pixel : K) * (pixel_color E i j s).1.y ∧
      0 ≤ 1 / (E.samples_per_pixel : K) * (pixel_color E i j s).1.z ∧
      (IsRounding E.rnd →
        0 ≤ E.rnd (E.rnd (1 / E.rnd (E.samples_per_pixel : K)) * (pixel_color E i j s).1.x) ∧
        0 ≤ E.rnd (E.rnd (1 / E.rnd (E.samples_per_pixel : K)) * (pixel_color E i j s).1.y) ∧
        0 ≤ E.rnd (E.rnd (1 / E.rnd (E.samples_per_pixel : K)) * (pixel_color E i j s).1.z))) := by
  have hray : ∀ (r : ray K) (depth : ℤ) (s : σ), r.direction ≠ ⟨0, 0, 0⟩ →
      (ray_color E.hit E.scatter E.sqrt r depth s).1.unit_range := fun r depth s hne =>
    ray_color_unit_range_aux E.hit E.scatter E.sqrt hsqrt hatt hsc depth.toNat r depth s rfl hne
  refine ⟨hray, ?_⟩
  intro i j s
  have hw := iterate_sample_step_within E hray hcam i j s E.samples_per_pixel.toNat
  have hcast : 0 ≤ E.samples_per_pixel →
      ((E.samples_per_pixel.toNat : ℕ) : K) = (E.samples_per_pixel : K) := by
    intro h
    have : ((E.samples_per_pixel.toNat : ℕ) : ℤ) = E.samples_per_pixel := Int.toNat_of_nonneg h
    exact_mod_cast this
  have hscale : ∀ x : K, 0 ≤ x → (x ≤ ((E.samples_per_pixel.toNat : ℕ) : K)) →
      0 ≤ 1 / (E.samples_per_pixel : K) * x := by
    intro x h0 h1
    rcases le_total 0 E.samples_per_pixel with h | h
    · have : (0 : K) ≤ (E.samples_per_pixel : K) := by exact_mod_cast h
      exact mul_nonneg (div_nonneg zero_le_one this) h0
    · have hz : E.samples_per_pixel.toNat = 0 := Int.toNat_of_nonpos h
      rw [hz] at h1
      have : x = 0 := le_antisymm (by simpa using h1) h0
      rw [this, mul_zero]
  have hround : IsRounding E.rnd → ∀ x : K, 0 ≤ x →
      (x ≤ ((E.samples_per_pixel.toNat : ℕ) : K)) →
      0 ≤ E.rnd (E.rnd (1 / E.rnd (E.samples_per_pixel : K)) * x) := by
    intro hr x h0 h1
    apply isRounding_nonneg E.rnd hr
    rcases le_total 0 E.samples_per_pixel with h | h
    · have h2 : (0 : K) ≤ (E.samples_per_pixel : K) := by exact_mod_cast h
      have h3 := isRounding_nonneg E.rnd hr _ h2
      exact mul_nonneg (isRounding_nonneg E.rnd hr _ (div_nonneg zero_le_one h3)) h0
    · have hz : E.samples_per_pixel.toNat = 0 := Int.toNat_of_nonpos h
      rw [hz] at h1
      have : x = 0 := le_antisymm (by simpa using h1) h0
      rw [this, mul_zero]
  refine ⟨hw, ?_, ?_, ?_, ?_, ?_⟩
  · intro h
    rw [← hcast h]
    exact hw
  · exact hscale _ hw.1.1 hw.1.2
  · exact hscale _ hw.2.1.1 hw.2.1.2
  · exact hscale _ hw.2.2.1 hw.2.2.2
  · intro hr
    exact ⟨hround hr _ hw.1.1 hw.1.2, hround hr _ hw.2.1.1 hw.2.1.2,
      hround hr _ hw.2.2.1 hw.2.2.2⟩

theorem floor_scatter_unit_range {K : Type} [LinearOrderedField K] (m : Bool) (r : ray K)
    (rec : hit_record K Bool) (s : ℕ) (a : color K) (sc : ray K) (s1 : ℕ)
    (h : floor_scatter m r rec s = (some (a, sc), s1)) : a.unit_range := by
  cases m with
  | false => simp [floor_scatter] at h
  | true =>
    simp only [floor_scatter, if_true, Prod.mk.injEq, Option.some.injEq] at h
    obtain ⟨⟨rfl, _⟩, _⟩ := h
    simp only [vec3.unit_range, vec3.within]
    norm_num

theorem floor_scatter_direction {K : Type} [LinearOrderedField K] (m : Bool) (r : ray K)
    (rec : hit_record K Bool) (s : ℕ) (a : color K) (sc : ray K) (s1 : ℕ)
    (hne : r.direction ≠ ⟨0, 0, 0⟩)
    (h : floor_scatter m r rec s = (some (a, sc), s1)) : sc.direction ≠ ⟨0, 0, 0⟩ := by
  cases m with
  | false => simp [floor_scatter] at h
  | true =>
    simp only [floor_scatter, if_true, Prod.mk.injEq, Option.some.injEq] at h
    obtain ⟨⟨_, rfl⟩, _⟩ := h
    intro h0
    apply hne
    simp only [vec3.mk.injEq, neg_eq_zero] at h0
    rcases hr : r.direction with ⟨x, y, z⟩
    rw [hr] at h0
    simp only at h0
    rw [h0.1, h0.2.1, h0.2.2]

theorem pinhole_direction {K : Type} [LinearOrderedField K] (u v : K) (s : ℕ) :
    (pinhole_get_ray u v s).1.direction ≠ ⟨0, 0, 0⟩ := by
  simp [pinhole_get_ray]

/-- Witness of C10 on the floor scene over `ℝ` with the real square root: a
ray that bounces off the mirror has its channels in `[0,1]`, the sum of the two
samples of pixel `(1, 1)` has its channels in `[0,2]`, and the rounded argument
of the square root of its red channel is not negative. -/
theorem ray_color_channels_bounded_witness :
    ((0 ≤ (ray_color floor_hit floor_scatter Real.sqrt ⟨⟨0, 1, 0⟩, ⟨1, -1, 0⟩⟩ 5 0).1.x ∧
        (ray_color floor_hit floor_scatter Real.sqrt ⟨⟨0, 1, 0⟩, ⟨1, -1, 0⟩⟩ 5 0).1.x ≤ 1) ∧
      (0 ≤ (ray_color floor_hit floor_scatter Real.sqrt ⟨⟨0, 1, 0⟩, ⟨1, -1, 0⟩⟩ 5 0).1.y ∧
        (ray_color floor_hit floor_scatter Real.sqrt ⟨⟨0, 1, 0⟩, ⟨1, -1, 0⟩⟩ 5 0).1.y ≤ 1) ∧
      (0 ≤ (ray_color floor_hit floor_scatter Real.sqrt ⟨⟨0, 1, 0⟩, ⟨1, -1, 0⟩⟩ 5 0).1.z ∧
        (ray_color floor_hit floor_scatter Real.sqrt ⟨⟨0, 1, 0⟩, ⟨1, -1, 0⟩⟩ 5 0).1.z ≤ 1)) ∧
    (pixel_color (floor_setup Real.sqrt 3 2 2 5) 1 1 0).1.within (((2 : ℤ)) : ℝ) ∧
    0 ≤ round_double (round_double (1 / round_double (((2 : ℤ)) : ℝ)) *
      (pixel_color (floor_setup Real.sqrt 3 2 2 5) 1 1 0).1.x) :=
  ⟨(ray_color_channels_bounded (floor_setup Real.sqrt 3 2 2 5) isSqrt_real
      floor_scatter_unit_range floor_scatter_direction pinhole_direction).1
      ⟨⟨0, 1, 0⟩, ⟨1, -1, 0⟩⟩ 5 0 (by simp),
   ((ray_color_channels_bounded (floor_setup Real.sqrt 3 2 2 5) isSqrt_real
      floor_scatter_unit_range floor_scatter_direction pinhole_direction).2 1 1 0).2.1
      (by decide),
   (((ray_color_channels_bounded (floor_setup Real.sqrt 3 2 2 5) isSqrt_real
      floor_scatter_unit_range floor_scatter_direction pinhole_direction).2 1 1 0).2.2.2.2.2
      isRounding_round_double).1⟩

/-! ### Quantisation of a channel -/

theorem render_row_upto_writes {K M σ : Type} [LinearOrderedField K] [FloorRing K]
    (E : render_setup K M σ) (P : pixel_write → Prop)
    (hP : ∀ (i j : ℤ) (s : σ), P (render_pixel E i j s).1) (j : ℤ) (n : ℕ)
    (st : List pixel_write × σ) (hst : ∀ w ∈ st.1, P w) :
    ∀ w ∈ (render_row_upto E j n st).1, P w := by
  induction n with
  | zero => simpa [render_row_upto] using hst
  | succ n ih =>
    rw [render_row_upto_succ]
    intro w hw
    rcases List.mem_append.mp hw with h | h
    · exact ih w h
    · rw [List.mem_singleton] at h
      rw [h]
      exact hP _ _ _

theorem render_rows_writes {K M σ : Type} [LinearOrderedField K] [FloorRing K]
    (E : render_setup K M σ) (P : pixel_write → Prop)
    (hP : ∀ (i j : ℤ) (s : σ), P (render_pixel E i j s).1) (order : List ℕ) :
    ∀ (st : List pixel_write × σ), (∀ w ∈ st.1, P w) →
      ∀ w ∈ (render_rows E order st).1, P w := by
  induction order with
  | nil => intro st hst; simpa [render_rows] using hst
  | cons j order ih =>
    intro st hst
    have : render_rows E (j :: order) st = render_rows E order (render_row E (j : ℤ) st) := rfl
    rw [this]
    exact ih _ (render_row_upto_writes E P hP _ _ st hst)

theorem render_eq_render_rows {K M σ : Type} [LinearOrderedField K] [FloorRing K]
    (E : render_setup K M σ) (s : σ) :
    render E s = render_rows E (List.range E.image_height.toNat) ([], s) := rfl

theorem write_channel_eq {K : Type} [LinearOrderedField K] [FloorRing K]
    (rnd sqrt : K → K) (samples_per_pixel : ℤ) (c n a p r y q : K) (z : ℤ)
    (h1 : rnd (samples_per_pixel : K) = n) (h2 : rnd (1 / n) = a) (h3 : rnd (a * c) = p)
    (h4 : sqrt p = r) (h5 : clamp r 0 (rnd (999 / 1000)) = y) (h6 : rnd (256 * y) = q)
    (h7 : static_cast_int q = z) : write_channel rnd sqrt samples_per_pixel c = z := by
  simp only [write_channel, h1, h2, h3, h4, h5, h6, h7]

theorem round_double_ten : round_double (10 : ℚ) = 10 := by
  rw [round_double_eq (10 : ℚ) (-49) 5629499534213120 (by norm_num) (by norm_num)
    (by norm_num) (by norm_num)]
  norm_num

theorem round_double_tenth : round_double (1 / 10 : ℚ) = 3602879701896397 / 2 ^ 55 := by
  rw [round_double_eq (1 / 10 : ℚ) (-56) 7205759403792794 (by norm_num) (by norm_num)
    (by norm_num) (by norm_num)]
  norm_num

theorem round_double_999 : round_double (999 / 1000 : ℚ) = 8998192055486251 / 2 ^ 53 := by
  rw [round_double_eq (999 / 1000 : ℚ) (-53) 8998192055486251 (by norm_num) (by norm_num)
    (by norm_num) (by norm_num)]
  norm_num

theorem sqrt_double_one : sqrt_double (1 : ℚ) = 1 := by
  rw [sqrt_double_eq (1 : ℚ) (-52) (2 ^ 104) (2 ^ 52) (2 ^ 52) (by norm_num) (by norm_num)
    (by norm_num) (by norm_num) (by norm_num) (by norm_num) (Or.inl ⟨by norm_num, rfl⟩)]
  norm_num

/-- C4, as stated, fails: with ten samples and the channel sum
`4398046511103999 / 2^60` (the double `0x1.f3ffffffffffep-9`) the loop writes
`5`, because `scale = 1.0 / 10` is rounded up to a double before it multiplies
the sum, while `floor(256 * clamp(sqrt(sum / 10), 0, 0.999))` is `4`, both when
the division and the root are computed in doubles and when they are exact. -/
theorem write_channel_not_quotient_formula :
    (0 : ℤ) < 10 ∧ (0 : ℚ) ≤ 4398046511103999 / 2 ^ 60 ∧
    write_channel round_double sqrt_double 10 (4398046511103999 / 2 ^ 60 : ℚ) = 5 ∧
    ⌊round_double (256 * clamp (sqrt_double (round_double
      ((4398046511103999 / 2 ^ 60 : ℚ) / round_double (((10 : ℤ)) : ℚ)))) 0
        (round_double (999 / 1000)))⌋ = 4 ∧
    ⌊(256 : ℝ) * clamp (Real.sqrt ((4398046511103999 / 2 ^ 60 : ℝ) / (((10 : ℤ)) : ℝ))) 0
      (999 / 1000)⌋ = 4 := by
  refine ⟨by decide, by norm_num, ?_, ?_, ?_⟩
  · refine write_channel_eq round_double sqrt_double 10 _ 10 (3602879701896397 / 2 ^ 55)
      (7036874417766399 / 2 ^ 64) (5 / 256) (5 / 256) 5 5
      (by rw [Int.cast_ofNat]; exact round_double_ten) round_double_tenth ?_ ?_ ?_ ?_ ?_
    · rw [round_double_eq (3602879701896397 / 2 ^ 55 * (4398046511103999 / 2 ^ 60) : ℚ) (-64)
        7036874417766399 (by norm_num) (by norm_num) (by norm_num) (by norm_num)]
      norm_num
    · rw [sqrt_double_eq (7036874417766399 / 2 ^ 64 : ℚ) (-58) (7036874417766399 * 2 ^ 52)
        5629499534213119 5629499534213120 (by norm_num) (by norm_num) (by norm_num)
        (by norm_num) (by norm_num) (by norm_num) (Or.inr ⟨by norm_num, by norm_num⟩)]
      norm_num
    · rw [round_double_999]
      unfold clamp
      norm_num
    · rw [round_double_eq (256 * (5 / 256) : ℚ) (-50) 5629499534213120
        (by norm_num) (by norm_num) (by norm_num) (by norm_num)]
      norm_num
    · unfold static_cast_int
      rw [if_pos (by norm_num), Int.floor_eq_iff]
      norm_num
  · have e1 : round_double (((10 : ℤ)) : ℚ) = 10 := by
      rw [Int.cast_ofNat]; exact round_double_ten
    have e2 : round_double ((4398046511103999 / 2 ^ 60 : ℚ) / 10) =
        3518437208883199 / 2 ^ 63 := by
      rw [round_double_eq ((4398046511103999 / 2 ^ 60 : ℚ) / 10) (-64) 7036874417766398
        (by norm_num) (by norm_num) (by norm_num) (by norm_num)]
      norm_num
    have e3 : sqrt_double (3518437208883199 / 2 ^ 63 : ℚ) = 5629499534213119 / 2 ^ 58 := by
      rw [sqrt_double_eq (3518437208883199 / 2 ^ 63 : ℚ) (-58) (3518437208883199 * 2 ^ 53)
        5629499534213119 5629499534213119 (by norm_num) (by norm_num) (by norm_num)
        (by norm_num) (by norm_num) (by norm_num) (Or.inl ⟨by norm_num, by norm_num⟩)]
      norm_num
    have e4 : clamp (5629499534213119 / 2 ^ 58 : ℚ) 0 (round_double (999 / 1000)) =
        5629499534213119 / 2 ^ 58 := by
      rw [round_double_999]
      unfold clamp
      norm_num
    have e5 : round_double (256 * (5629499534213119 / 2 ^ 58) : ℚ) =
        5629499534213119 / 2 ^ 50 := by
      rw [round_double_eq (256 * (5629499534213119 / 2 ^ 58) : ℚ) (-50) 5629499534213119
        (by norm_num) (by norm_num) (by norm_num) (by norm_num)]
      norm_num
    rw [e1, e2, e3, e4, e5, Int.floor_eq_iff]
    norm_num
  · have hx : (0 : ℝ) ≤ (4398046511103999 / 2 ^ 60 : ℝ) / (((10 : ℤ)) : ℝ) := by norm_num
    have hlo : (4 / 256 : ℝ) ≤
        Real.sqrt ((4398046511103999 / 2 ^ 60 : ℝ) / (((10 : ℤ)) : ℝ)) := by
      apply Real.le_sqrt_of_sq_le
      norm_num
    have hhi : Real.sqrt ((4398046511103999 / 2 ^ 60 : ℝ) / (((10 : ℤ)) : ℝ)) < 5 / 256 := by
      rw [Real.sqrt_lt' (by norm_num)]
      norm_num
    have hc : clamp (Real.sqrt ((4398046511103999 / 2 ^ 60 : ℝ) / (((10 : ℤ)) : ℝ))) 0
        (999 / 1000) = Real.sqrt ((4398046511103999 / 2 ^ 60 : ℝ) / (((10 : ℤ)) : ℝ)) := by
      unfold clamp
      rw [if_neg (by linarith), if_neg (by linarith)]
    rw [hc, Int.floor_eq_iff]
    constructor
    · push_cast; linarith
    · push_cast; linarith

/-- C4, amended: for a positive number of samples and a non-negative channel
sum, under a monotone rounding of relative error `2^-53`, the channel value the
loop writes is `floor(256 * clamp(sqrt(scale * sum), 0, 0.999))` with
`scale = 1.0 / samplesPerPixel`, every operation rounded as the code computes
it, the truncating cast agreeing with the floor; it is an integer of
`[0,255]`, and `255` is reached whenever the root is at least `0.999`.  In
exact arithmetic the value is `floor(256 * clamp(sqrt(sum / samplesPerPixel),
0, 0.999))`, and `255` is reached at the sum `samplesPerPixel`.  The three
values of every write of the render loop are these channel values of the
accumulated colour of its pixel. -/
theorem write_channel_quantised {K M σ : Type} [LinearOrderedField K] [FloorRing K]
    (E : render_setup K M σ) (hrnd : IsRounding E.rnd) (hs : 0 < E.samples_per_pixel) :
    (∀ c : K, 0 ≤ c →
      write_channel E.rnd E.sqrt E.samples_per_pixel c =
        ⌊E.rnd (256 * clamp
          (E.sqrt (E.rnd (E.rnd (1 / E.rnd (E.samples_per_pixel : K)) * c))) 0
          (E.rnd (999 / 1000)))⌋ ∧
      0 ≤ write_channel E.rnd E.sqrt E.samples_per_pixel c ∧
      write_channel E.rnd E.sqrt E.samples_per_pixel c ≤ 255 ∧
      (E.rnd (999 / 1000) ≤
          E.sqrt (E.rnd (E.rnd (1 / E.rnd (E.samples_per_pixel : K)) * c)) →
        write_channel E.rnd E.sqrt E.samples_per_pixel c = 255) ∧
      ((∀ x : K, E.rnd x = x) →
        write_channel E.rnd E.sqrt E.samples_per_pixel c =
          ⌊256 * clamp (E.sqrt (c / (E.samples_per_pixel : K))) 0 (999 / 1000)⌋)) ∧
    ((∀ x : K, E.rnd x = x) → IsSqrt E.sqrt →
      write_channel E.rnd E.sqrt E.samples_per_pixel (E.samples_per_pixel : K) = 255) ∧
    (∀ (i j : ℤ) (s : σ), (render_pixel E i j s).1 =
      ⟨i, j, write_channel E.rnd E.sqrt E.samples_per_pixel (pixel_color E i j s).1.x,
        write_channel E.rnd E.sqrt E.samples_per_pixel (pixel_color E i j s).1.y,
        write_channel E.rnd E.sqrt E.samples_per_pixel (pixel_color E i j s).1.z⟩) ∧
    (∀ (s : σ), ∀ w ∈ (render E s).1, ∃ s1 : σ, w = (render_pixel E w.i w.j s1).1) := by
  obtain ⟨t0, t1, t2⟩ := isRounding_top E.rnd hrnd
  have key : ∀ x : K,
      static_cast_int (E.rnd (256 * clamp x 0 (E.rnd (999 / 1000)))) =
        ⌊E.rnd (256 * clamp x 0 (E.rnd (999 / 1000)))⌋ ∧
      0 ≤ static_cast_int (E.rnd (256 * clamp x 0 (E.rnd (999 / 1000)))) ∧
      static_cast_int (E.rnd (256 * clamp x 0 (E.rnd (999 / 1000)))) ≤ 255 := by
    intro x
    obtain ⟨b0, b1⟩ := clamp_bounds x 0 (E.rnd (999 / 1000)) t0
    have h0 : (0 : K) ≤ E.rnd (256 * clamp x 0 (E.rnd (999 / 1000))) :=
      isRounding_nonneg E.rnd hrnd _ (by linarith)
    have hmono : E.rnd (256 * clamp x 0 (E.rnd (999 / 1000))) ≤
        E.rnd (256 * E.rnd (999 / 1000)) := hrnd.1 (by linarith)
    have h1 : E.rnd (256 * clamp x 0 (E.rnd (999 / 1000))) < (((256 : ℤ)) : K) := by
      push_cast; linarith
    have e : static_cast_int (E.rnd (256 * clamp x 0 (E.rnd (999 / 1000)))) =
        ⌊E.rnd (256 * clamp x 0 (E.rnd (999 / 1000)))⌋ := by
      unfold static_cast_int; rw [if_pos h0]
    rw [e]
    refine ⟨rfl, Int.floor_nonneg.mpr h0, ?_⟩
    have := Int.floor_lt.mpr h1
    omega
  have htop : static_cast_int (E.rnd (256 * E.rnd (999 / 1000))) = 255 := by
    unfold static_cast_int
    rw [if_pos (by linarith), Int.floor_eq_iff]
    constructor
    · push_cast; exact t1
    · push_cast; linarith
  have hw : ∀ c : K, write_channel E.rnd E.sqrt E.samples_per_pixel c =
      static_cast_int (E.rnd (256 * clamp
        (E.sqrt (E.rnd (E.rnd (1 / E.rnd (E.samples_per_pixel : K)) * c))) 0
        (E.rnd (999 / 1000)))) := fun c => rfl
  have hsK : (0 : K) < (E.samples_per_pixel : K) := by exact_mod_cast hs
  refine ⟨?_, ?_, fun _ _ _ => rfl, ?_⟩
  · intro c _
    refine ⟨?_, ?_, ?_, ?_, ?_⟩
    · rw [hw]; exact (key _).1
    · rw [hw]; exact (key _).2.1
    · rw [hw]; exact (key _).2.2
    · intro hbig
      rw [hw, clamp_of_ge _ _ _ t0 hbig]
      exact htop
    · intro hid
      have h := (key (E.sqrt (E.rnd (E.rnd (1 / E.rnd (E.samples_per_pixel : K)) * c)))).1
      rw [← hw] at h
      rw [h]
      simp only [hid]
      rw [one_div, inv_mul_eq_div]
  · intro hid hsqrt
    rw [hw]
    simp only [hid]
    rw [one_div, inv_mul_eq_div, div_self hsK.ne']
    obtain ⟨p0, p1⟩ := hsqrt 1 zero_le_one
    have h1 : E.sqrt 1 = 1 := by
      rcases mul_self_eq_mul_self_iff.mp
        (by rw [p1, mul_one] : E.sqrt 1 * E.sqrt 1 = 1 * 1) with h | h
      · exact h
      · exfalso; linarith
    rw [h1, clamp_of_ge _ _ _ (by norm_num) (by norm_num)]
    have := htop
    simp only [hid] at this
    exact this
  · intro s
    rw [render_eq_render_rows]
    exact render_rows_writes E (fun w => ∃ s1 : σ, w = (render_pixel E w.i w.j s1).1)
      (fun i j s1 => ⟨s1, rfl⟩) _ _ (by simp)

/-- Witness of amended C4 over `ℚ`, in double arithmetic, for the floor scene at
400 by 266 pixels with ten samples: the channel sum `5/2` is written as `128`
(`scale * sum` rounds to `1/4`, whose root is `1/2`), and the channel sum `10`
is written as `255` (`scale * sum` rounds to `1`). -/
theorem write_channel_quantised_witness :
    write_channel round_double sqrt_double 10 (5 / 2 : ℚ) = 128 ∧
    write_channel round_double sqrt_double 10 (10 : ℚ) = 255 := by
  refine ⟨?_, ?_⟩
  swap
  · have e1 : round_double (((10 : ℤ)) : ℚ) = 10 := by
      rw [Int.cast_ofNat]; exact round_double_ten
    have e2 : round_double (3602879701896397 / 2 ^ 55 * 10 : ℚ) = 1 := by
      rw [round_double_eq (3602879701896397 / 2 ^ 55 * 10 : ℚ) (-52) 4503599627370496
        (by norm_num) (by norm_num) (by norm_num) (by norm_num)]
      norm_num
    have hbig : round_double (999 / 1000 : ℚ) ≤ sqrt_double (round_double
        (round_double (1 / round_double (((10 : ℤ)) : ℚ)) * 10)) := by
      rw [e1, round_double_tenth, e2, sqrt_double_one, round_double_999]
      norm_num
    exact ((write_channel_quantised (floor_setup (sqrt_double : ℚ → ℚ) 400 266 10 50)
      isRounding_round_double (by decide)).1 10 (by norm_num)).2.2.2.1 hbig
  have h : write_channel round_double sqrt_double 10 (5 / 2 : ℚ) =
      ⌊round_double (256 * clamp (sqrt_double (round_double
        (round_double (1 / round_double (((10 : ℤ)) : ℚ)) * (5 / 2)))) 0
        (round_double (999 / 1000)))⌋ :=
    ((write_channel_quantised (floor_setup (sqrt_double : ℚ → ℚ) 400 266 10 50)
      isRounding_round_double (by decide)).1 (5 / 2) (by norm_num)).1
  have e1 : round_double (((10 : ℤ)) : ℚ) = 10 := by
    rw [Int.cast_ofNat]; exact round_double_ten
  have e2 : round_double (3602879701896397 / 2 ^ 55 * (5 / 2) : ℚ) = 1 / 4 := by
    rw [round_double_eq (3602879701896397 / 2 ^ 55 * (5 / 2) : ℚ) (-54) 4503599627370496
      (by norm_num) (by norm_num) (by norm_num) (by norm_num)]
    norm_num
  have e3 : sqrt_double (1 / 4 : ℚ) = 1 / 2 := by
    rw [sqrt_double_eq (1 / 4 : ℚ) (-53) (2 ^ 104) (2 ^ 52) (2 ^ 52) (by norm_num)
      (by norm_num) (by norm_num) (by norm_num) (by norm_num) (by norm_num)
      (Or.inl ⟨by norm_num, rfl⟩)]
    norm_num
  have e4 : clamp (1 / 2 : ℚ) 0 (round_double (999 / 1000)) = 1 / 2 := by
    rw [round_double_999]
    unfold clamp
    norm_num
  have e5 : round_double (256 * (1 / 2) : ℚ) = 128 := by
    rw [round_double_eq (256 * (1 / 2) : ℚ) (-45) 4503599627370496
      (by norm_num) (by norm_num) (by norm_num) (by norm_num)]
    norm_num
  rw [h, e1, round_double_tenth, e2, e3, e4, e5, Int.floor_eq_iff]
  norm_num

/-! ### The order of the rows -/

end TinyRaytracer
